import Mathlib

/-!
# Verification of the gddo database core (database/database.go)

Shallow embedding of the Redis-backed package database of gddo (godoc.org):
the Lua-scripted atomic mutators (put, delete, block, addCrawl, bumpCrawl,
setNextCrawlEtag, getDoc, popular), the ranker `documentRank`, the term
extractor `documentTerms` and the query pipeline `Query`.

Modelling conventions, stated once here:

* Redis strings/hashes/sets/zsets become association lists and plain lists;
  hashes have first-match lookup semantics, sets are membership-only.
* Go `string` is modelled as Lean `String` (a list of characters).  Byte
  indexing in Go (`s[i:]`, `len`) is modelled by character indexing, which
  agrees on ASCII data; every concrete input used below is ASCII.
* `float64` scores are modelled as `Rat`; the ranker only multiplies small
  decimal constants, so which factors fire is the content of the claims.
* `time.Time` is modelled as `Option Int` (Unix seconds); `none` is the Go
  zero `time.Time{}`, `some t` is `time.Unix(t, 0)`.  Note `some 0` (the 1970
  epoch) is distinct from the zero time, exactly as in Go.
* The snappy-compressed gob blob of a document is modelled by the document
  itself (`gob : Option Doc`); encode/decode round-tripping is outside the
  claims under verification.
* `stopWord` and `stem` live in a repository file that is not among the
  provided sources.  Modelled from the spec: "A fixed stop-word list is
  filtered; remaining tokens are passed through an English suffix stemmer"
  gives no concrete table, so both are abstract parameters (`sw`, `st`)
  threaded through the tokenizer; claims quantify over them and concrete
  instances are supplied for witnesses and counterexamples.
* `doc.IsValidPath` / `gosrc.IsValidRemotePath` are external validators;
  modelled as an abstract parameter `iv`.
* `unicode.IsSpace/IsPunct/IsSymbol` and `ToLower` are modelled exactly on
  the ASCII/Latin-1 space range; all inputs appearing in claims are ASCII.
-/

/-! ## Generic association-list store primitives -/

/-- First-match lookup in an association list (Redis `HGET`). -/
def alookup {κ β : Type} [BEq κ] : List (κ × β) → κ → Option β
  | [], _ => none
  | (k1, v) :: t, k => if k1 == k then some v else alookup t k

/-- Remove every binding of a key (Redis `HDEL`). -/
def adel {κ β : Type} [BEq κ] (l : List (κ × β)) (k : κ) : List (κ × β) :=
  l.filter (fun p => !(p.1 == k))

/-- Set a key to a value (Redis `HSET` / `ZADD`); representation puts the
fresh binding in front, lookup semantics are what matters. -/
def aset {κ β : Type} [BEq κ] (l : List (κ × β)) (k : κ) (v : β) : List (κ × β) :=
  (k, v) :: adel l k

/-- Redis `SADD` on a set modelled as a duplicate-free list. -/
def saddL {α : Type} [BEq α] (l : List α) (x : α) : List α :=
  if l.contains x then l else l ++ [x]

/-- Redis `SREM`. -/
def sremL {α : Type} [BEq α] (l : List α) (x : α) : List α :=
  l.filter (fun y => !(y == x))

@[simp] theorem alookup_nil {κ β : Type} [BEq κ] (k : κ) :
    alookup ([] : List (κ × β)) k = none := rfl

@[simp] theorem alookup_cons {κ β : Type} [BEq κ] (k1 : κ) (v : β) (t : List (κ × β)) (k : κ) :
    alookup ((k1, v) :: t) k = if k1 == k then some v else alookup t k := rfl

@[simp] theorem adel_nil {κ β : Type} [BEq κ] (k : κ) :
    adel ([] : List (κ × β)) k = [] := rfl

theorem adel_cons {κ β : Type} [BEq κ] (k1 : κ) (v : β) (t : List (κ × β)) (k : κ) :
    adel ((k1, v) :: t) k = if k1 == k then adel t k else (k1, v) :: adel t k := by
  simp only [adel, List.filter_cons]
  cases h : k1 == k <;> simp

theorem alookup_adel {κ β : Type} [BEq κ] [LawfulBEq κ] [DecidableEq κ]
    (l : List (κ × β)) (k k2 : κ) :
    alookup (adel l k) k2 = if k2 = k then none else alookup l k2 := by
  induction l with
  | nil => by_cases h : k2 = k <;> simp [h]
  | cons p t ih =>
    obtain ⟨k1, v⟩ := p
    rw [adel_cons]
    by_cases h1 : k1 = k <;> by_cases h2 : k2 = k <;> by_cases h3 : k1 = k2 <;>
      simp_all [alookup]

theorem alookup_aset_self {κ β : Type} [BEq κ] [LawfulBEq κ] (l : List (κ × β)) (k : κ) (v : β) :
    alookup (aset l k v) k = some v := by
  simp [aset, alookup]

theorem alookup_aset_ne {κ β : Type} [BEq κ] [LawfulBEq κ] [DecidableEq κ]
    (l : List (κ × β)) (k k2 : κ) (v : β)
    (h : k2 ≠ k) : alookup (aset l k v) k2 = alookup l k2 := by
  have h1 : (k == k2) = false := by simpa using Ne.symm h
  simp [aset, alookup, h1, alookup_adel, h]

theorem mem_saddL {α : Type} [BEq α] [LawfulBEq α] (l : List α) (x y : α) :
    y ∈ saddL l x ↔ y ∈ l ∨ y = x := by
  by_cases hx : x ∈ l
  · have hc : l.contains x = true := by simpa using hx
    simp only [saddL, hc, if_true]
    constructor
    · exact Or.inl
    · rintro (hy | rfl)
      · exact hy
      · exact hx
  · have hc : l.contains x = false := by simpa using hx
    simp [saddL, hc, hx]

theorem mem_sremL {α : Type} [BEq α] [LawfulBEq α] (l : List α) (x y : α) :
    y ∈ sremL l x ↔ y ∈ l ∧ y ≠ x := by
  simp [sremL]

theorem not_mem_sremL_self {α : Type} [BEq α] [LawfulBEq α] (l : List α) (x : α) :
    x ∉ sremL l x := by
  simp [sremL]

/-! ## Go string helpers (strings / unicode / path packages) -/

/-- `strings.HasPrefix`, on the character lists of the two strings. -/
def strStartsWith (s pre : String) : Bool :=
  pre.data.isPrefixOf s.data

/-- `strings.HasSuffix`, on the character lists of the two strings. -/
def strEndsWith (s post : String) : Bool :=
  post.data.isSuffixOf s.data

/-- `strings.Contains(s, string(c))` for one character. -/
def strHasChar (s : String) (c : Char) : Bool :=
  s.data.contains c

/-- `strings.Index(s, pat)`: first index of a substring, `-1` if absent. -/
def strIndex : List Char → List Char → Int
  | [], pat => if pat.isEmpty then 0 else -1
  | c :: t, pat =>
    if pat.isPrefixOf (c :: t) then 0
    else
      let r := strIndex t pat
      if r < 0 then -1 else r + 1

/-- `path.Base`: last element of a slash-separated path, with the Go library
edge cases (`""` gives `"."`, all-slashes gives `"/"`). -/
def pathBase (s : List Char) : List Char :=
  if s.isEmpty then ['.']
  else
    let t := s.reverse.dropWhile (fun c => c == '/')
    let b := t.takeWhile (fun c => !(c == '/'))
    if b.isEmpty then ['/'] else b.reverse

/-- `unicode.IsSpace` on the Latin-1 range (the range all claim inputs use). -/
def goIsSpace (c : Char) : Bool :=
  c == ' ' || c == '\t' || c == '\n' || c.val == 11 || c.val == 12 ||
    c == '\r' || c.val == 0x85 || c.val == 0xA0

/-- `isTermSep` from the source: whitespace, punctuation or symbol code point.
Modelled exactly on ASCII (printable non-alphanumeric ASCII is precisely the
union of the Unicode punctuation and symbol classes there). -/
def isTermSep (c : Char) : Bool :=
  goIsSpace c || (0x21 ≤ c.val && c.val ≤ 0x7E && !c.isAlphanum)

/-- ASCII lowercase map, modelling `strings.ToLower` on ASCII data. -/
def lowerStr (s : List Char) : List Char :=
  s.map Char.toLower

/-- Accumulator for `fieldsFunc`: complete fields to the right, plus the
(reversed-scan) word currently being read at the left end. -/
def fieldsAux (f : Char → Bool) (s : List Char) : List (List Char) × List Char :=
  s.foldr
    (fun c acc =>
      if f c then (if acc.2.isEmpty then acc.1 else acc.2 :: acc.1, [])
      else (acc.1, c :: acc.2))
    ([], [])

/-- `strings.FieldsFunc`: maximal runs of characters not satisfying `f`. -/
def fieldsFunc (f : Char → Bool) (s : List Char) : List (List Char) :=
  let a := fieldsAux f s
  if a.2.isEmpty then a.1 else a.2 :: a.1

/-- Space of the Go regexp `\s` class (`[\t\n\f\r ]`), used by `\S`. -/
def perlSpace (c : Char) : Bool :=
  c == ' ' || c == '\t' || c == '\n' || c.val == 12 || c == '\r'

/-- Is the head character present and not a `\s` character (one `\S`)? -/
def nonSpaceHead : List Char → Bool
  | [] => false
  | c :: _ => !perlSpace c

/-- Does `https?://\S+` match at the head of the list? -/
def matchUrl (s : List Char) : Bool :=
  ("http://".data.isPrefixOf s && nonSpaceHead (s.drop 7)) ||
    ("https://".data.isPrefixOf s && nonSpaceHead (s.drop 8))

/-- Fueled worker for `stripUrls` (fuel bounds the length, keeping the
definition structurally recursive and kernel-evaluable). -/
def stripUrlsGo : Nat → List Char → List Char
  | 0, s => s
  | _ + 1, [] => []
  | n + 1, c :: t =>
    if matchUrl (c :: t) then stripUrlsGo n ((c :: t).dropWhile (fun d => !perlSpace d))
    else c :: stripUrlsGo n t

/-- `httpPat.ReplaceAllLiteralString(s, "")` for `httpPat = https?://\S+`. -/
def stripUrls (s : List Char) : List Char :=
  stripUrlsGo s.length s

/-- `gmatch '([^ ]+)'`: space-separated fields, empty fields dropped. -/
def splitSp (s : String) : List String :=
  (fieldsFunc (fun c => c == ' ') s.data).map String.mk

/-- `strings.Join(l, " ")`. -/
def joinSp : List String → String
  | [] => ""
  | [t] => t
  | t :: u :: rest => t ++ " " ++ joinSp (u :: rest)

/-! ## Data model -/

/-- `doc.Package`, the parsed package document consumed from the fetcher.
Only the fields read by the database core are modelled; the body sections
(consts, vars, funcs, types, examples) and the error list are only ever
inspected through their lengths, so they are modelled as counts. -/
structure Doc where
  importPath : String := ""
  projectRoot : String := ""
  projectName : String := ""
  name : String := ""
  synopsis : String := ""
  isCmd : Bool := false
  etag : String := ""
  updated : Option Int := none
  truncated : Bool := false
  imports : List String := []
  testImports : List String := []
  xtestImports : List String := []
  subdirectories : List String := []
  errors : Nat := 0
  consts : Nat := 0
  vars : Nat := 0
  funcs : Nat := 0
  types : Nat := 0
  examples : Nat := 0
deriving DecidableEq

/-- The `pkg:<id>` hash.  An absent field is the field default for string
fields (Lua reads them with `or ''`), and `none` for `gob`, `crawl` and
`clone`, whose presence the scripts test explicitly. -/
structure PkgRec where
  path : String := ""
  synopsis : String := ""
  score : Rat := 0
  gob : Option Doc := none
  terms : String := ""
  etag : String := ""
  kind : String := ""
  crawl : Option Int := none
  clone : Option String := none
deriving DecidableEq

def emptyRec : PkgRec := {}

/-- The Redis keyspace of the database.  `popular` is the `popular` zset
represented by its member list in descending score order. -/
structure Store where
  ids : List (String × Nat) := []
  maxPackageId : Nat := 0
  pkgs : List (Nat × PkgRec) := []
  index : List (String × List Nat) := []
  nextCrawl : List (Nat × Int) := []
  newCrawl : List String := []
  badCrawl : List String := []
  block : List String := []
  popular : List Nat := []
deriving DecidableEq

def emptyStore : Store := {}

/-- All fields of `pkg:<id>`, reading an absent hash as all-absent fields. -/
def getRec (s : Store) (id : Nat) : PkgRec :=
  (alookup s.pkgs id).getD emptyRec

/-- `HSET`/`HMSET` on `pkg:<id>` as a record update. -/
def updRec (s : Store) (id : Nat) (f : PkgRec → PkgRec) : Store :=
  { s with pkgs := aset s.pkgs id (f (getRec s id)) }

/-- Members of the set stored at an `index:*` key. -/
def idxSet (s : Store) (key : String) : List Nat :=
  (alookup s.index key).getD []

/-- `SADD index:<key> id`. -/
def saddIdx (s : Store) (key : String) (id : Nat) : Store :=
  { s with index := aset s.index key (saddL (idxSet s key) id) }

/-- `SREM index:<key> id`. -/
def sremIdx (s : Store) (key : String) (id : Nat) : Store :=
  { s with index := aset s.index key (sremL (idxSet s key) id) }

/-- `HEXISTS ids path` (the `Exists` operation). -/
def existsPath (s : Store) (path : String) : Bool :=
  (alookup s.ids path).isSome

@[simp] theorem saddIdx_pkgs (s : Store) (k : String) (id : Nat) :
    (saddIdx s k id).pkgs = s.pkgs := rfl

@[simp] theorem sremIdx_pkgs (s : Store) (k : String) (id : Nat) :
    (sremIdx s k id).pkgs = s.pkgs := rfl

@[simp] theorem saddIdx_nextCrawl (s : Store) (k : String) (id : Nat) :
    (saddIdx s k id).nextCrawl = s.nextCrawl := rfl

@[simp] theorem sremIdx_nextCrawl (s : Store) (k : String) (id : Nat) :
    (sremIdx s k id).nextCrawl = s.nextCrawl := rfl

@[simp] theorem saddIdx_ids (s : Store) (k : String) (id : Nat) :
    (saddIdx s k id).ids = s.ids := rfl

@[simp] theorem sremIdx_ids (s : Store) (k : String) (id : Nat) :
    (sremIdx s k id).ids = s.ids := rfl

@[simp] theorem updRec_nextCrawl (s : Store) (id : Nat) (f : PkgRec → PkgRec) :
    (updRec s id f).nextCrawl = s.nextCrawl := rfl

@[simp] theorem updRec_ids (s : Store) (id : Nat) (f : PkgRec → PkgRec) :
    (updRec s id f).ids = s.ids := rfl

@[simp] theorem updRec_index (s : Store) (id : Nat) (f : PkgRec → PkgRec) :
    (updRec s id f).index = s.index := rfl

theorem getRec_updRec_self (s : Store) (id : Nat) (f : PkgRec → PkgRec) :
    getRec (updRec s id f) id = f (getRec s id) := by
  simp [getRec, updRec, alookup_aset_self]

theorem getRec_updRec_ne (s : Store) (id i : Nat) (f : PkgRec → PkgRec) (h : i ≠ id) :
    getRec (updRec s id f) i = getRec s i := by
  simp [getRec, updRec, alookup_aset_ne _ _ _ _ h]

theorem idxSet_saddIdx_self (s : Store) (k : String) (id : Nat) :
    idxSet (saddIdx s k id) k = saddL (idxSet s k) id := by
  simp [idxSet, saddIdx, alookup_aset_self]

theorem idxSet_saddIdx_ne (s : Store) (k k2 : String) (id : Nat) (h : k2 ≠ k) :
    idxSet (saddIdx s k id) k2 = idxSet s k2 := by
  simp [idxSet, saddIdx, alookup_aset_ne _ _ _ _ h]

theorem idxSet_sremIdx_self (s : Store) (k : String) (id : Nat) :
    idxSet (sremIdx s k id) k = sremL (idxSet s k) id := by
  simp [idxSet, sremIdx, alookup_aset_self]

theorem idxSet_sremIdx_ne (s : Store) (k k2 : String) (id : Nat) (h : k2 ≠ k) :
    idxSet (sremIdx s k id) k2 = idxSet s k2 := by
  simp [idxSet, sremIdx, alookup_aset_ne _ _ _ _ h]

/-- A projection that a fold body never changes is unchanged by the fold. -/
theorem foldl_preserve {α β : Type} (g : Store → β) (f : Store → α → Store)
    (h : ∀ s a, g (f s a) = g s) :
    ∀ (l : List α) (s : Store), g (List.foldl f s l) = g s := by
  intro l
  induction l with
  | nil => intro s; rfl
  | cons a t ih => intro s; rw [List.foldl_cons, ih, h]

/-! ## Tokenizer and ranker (index part of the database package) -/

/-- `isStandardPackage`: the import path contains no dot. -/
def isStandardPackage (path : String) : Bool :=
  !(strHasChar path '.')

/-- `normalizeProjectRoot`: an empty project root is the reserved root `go`. -/
def normalizeProjectRoot (projectRoot : String) : String :=
  if projectRoot = "" then "go" else projectRoot

/-- `suggestPrefix`: the first two code points of a string, `""` if shorter. -/
def suggestPrefix (s : List Char) : List Char :=
  if 2 ≤ s.length then s.take 2 else []

/-- `parseQuery`: lowercase, split on term separators, drop stop words, stem.
`sw` is the stop-word table and `st` the stemmer (modelled from the spec as
abstract parameters, see the header). -/
def parseQuery (sw : String → Bool) (st : String → String) (q : String) : List String :=
  (fieldsFunc isTermSep (lowerStr q.data)).filterMap fun w =>
    let s := String.mk w
    if sw s then none else some (st s)

/-- The lowercased token list of a synopsis after URL stripping, in order. -/
def synopsisTokens (synopsis : String) : List String :=
  (fieldsFunc isTermSep (stripUrls synopsis.data)).map fun w => String.mk (lowerStr w)

/-- The filter applied to synopsis token `s` at position `i` inside
`documentTerms`: not a stop word, and `"package"` only past index 3. -/
def keepSynToken (sw : String → Bool) (i : Nat) (s : String) : Bool :=
  !sw s && (decide (i > 3) || !(s == "package"))

/-- The stemmed terms contributed by the synopsis loop of `documentTerms`. -/
def synopsisTerms (sw : String → Bool) (st : String → String) (synopsis : String) :
    List String :=
  (synopsisTokens synopsis).enum.filterMap fun p =>
    if keepSynToken sw p.1 p.2 then some (st p.2) else none

/-- Insert into the term set (a Go `map[string]bool` modelled as a
duplicate-free list; the map iteration order is arbitrary in Go, so only
membership in the result is meaningful). -/
def insertTerm (l : List String) (t : String) : List String :=
  if t ∈ l then l else l ++ [t]

def insertTerms (l : List String) (ts : List String) : List String :=
  ts.foldl insertTerm l

/-- `documentTerms`: the persisted term set of a document given its rank.
`iv` models the external import-path validator `doc.IsValidPath`. -/
def documentTerms (sw : String → Bool) (st : String → String) (iv : String → Bool)
    (pdoc : Doc) (rank : Rat) : List String :=
  let terms := insertTerm [] ("project:" ++ normalizeProjectRoot pdoc.projectRoot)
  let terms := (pdoc.imports.filter iv).foldl
    (fun ts p => insertTerm ts ("import:" ++ p)) terms
  if rank > 0 then
    let terms :=
      if isStandardPackage pdoc.importPath then
        insertTerms terms (parseQuery sw st pdoc.importPath)
      else
        insertTerms (insertTerm terms "all:")
          (parseQuery sw st pdoc.projectName ++ parseQuery sw st pdoc.name)
    let terms := insertTerms terms (synopsisTerms sw st pdoc.synopsis)
    let sp := suggestPrefix (pathBase pdoc.importPath.data)
    if sp ≠ [] then insertTerm terms ("suggest:" ++ String.mk sp) else terms
  else terms

/-- Kernel-computable rational multiplication; `Rat.mul` itself does not
reduce inside the kernel, so the ranker uses this definitionally equal
version (see `qmul_eq`) to keep concrete rank computations decidable. -/
def qmul (a b : Rat) : Rat :=
  Rat.normalize (a.num * b.num) (a.den * b.den) (Nat.mul_ne_zero a.den_nz b.den_nz)

theorem qmul_eq (a b : Rat) : qmul a b = a * b :=
  (Rat.mul_def a b).symm

/-- The float constant `0.85` of the ranker, as an exact rational. -/
def rat85 : Rat := Rat.normalize 85 100 (by decide)

/-- The float constant `0.9` of the ranker, as an exact rational. -/
def rat90 : Rat := Rat.normalize 9 10 (by decide)

theorem rat85_eq : rat85 = 85 / 100 := by
  rw [rat85, Rat.normalize_eq_mkRat, Rat.mkRat_eq_div]
  norm_num

theorem rat90_eq : rat90 = 9 / 10 := by
  rw [rat90, Rat.normalize_eq_mkRat, Rat.mkRat_eq_div]
  norm_num

/-- `documentRank`: the per-document search rank. -/
def documentRank (pdoc : Doc) : Rat :=
  if pdoc.name == "" || pdoc.isCmd || decide (pdoc.errors ≠ 0) ||
      strEndsWith pdoc.importPath ".go" then 0
  else if pdoc.imports.any (fun p => strEndsWith p ".go") then 0
  else if !pdoc.truncated && decide (pdoc.consts = 0) && decide (pdoc.vars = 0) &&
      decide (pdoc.funcs = 0) && decide (pdoc.types = 0) &&
      decide (pdoc.examples = 0) then 0
  else
    let r : Rat :=
      if isStandardPackage pdoc.importPath then 1000
      else if strStartsWith pdoc.importPath "code.google.com/p/go." then 500
      else if strStartsWith pdoc.synopsis ("Package " ++ pdoc.name ++ " ") then 100
      else if pdoc.synopsis.data.length > 0 then 10
      else 1
    let r := if strIndex (pdoc.importPath.data.drop pdoc.projectRoot.length)
        "/src/".data > 0 then qmul r rat85 else r
    if pathBase pdoc.importPath.data ≠ pdoc.name.data then qmul r rat90 else r

/-! ## Atomic mutator scripts -/

/-- The id-allocation prologue of `putScript`: look up the id of the path,
allocating `INCR maxPackageId` and registering it in `ids` when absent. -/
def putEnsureId (path : String) (s : Store) : Nat × Store :=
  match alookup s.ids path with
  | some id => (id, s)
  | none =>
    (s.maxPackageId + 1,
      { s with maxPackageId := s.maxPackageId + 1,
               ids := aset s.ids path (s.maxPackageId + 1) })

/-- One term of the inverted-index delta of `putScript`: old terms weigh 1,
each occurrence among the new terms adds 2; weight 1 means `SREM`, weight 2
means `SADD`, anything else is a no-op. -/
def putTermStep (old new : List String) (id : Nat) (s : Store) (t : String) : Store :=
  let w := (if t ∈ old then 1 else 0) + 2 * new.count t
  if w = 1 then sremIdx s ("index:" ++ t) id
  else if w = 2 then saddIdx s ("index:" ++ t) id
  else s

/-- The inverted-index delta of `putScript` over the whole term domain.
The Lua `pairs` iteration order is arbitrary; the per-term operations act on
distinct keys, so any enumeration of the domain is equivalent. -/
def putTermOps (old new : List String) (id : Nat) (s : Store) : Store :=
  ((old ++ new).dedup).foldl (putTermStep old new id) s

/-- `putScript`: the atomic body of `Put`.  `nextCrawl = 0` models the `'0'`
string argument meaning "do not schedule". -/
def putScript (path synopsis : String) (score : Rat) (gob : Option Doc)
    (terms etag kind : String) (nextCrawl : Int) (s : Store) : Store :=
  let pr := putEnsureId path s
  let id := pr.1
  let s1 := pr.2
  let terms2 := if etag ≠ "" ∧ (alookup s1.pkgs id).bind PkgRec.clone = some etag
    then "" else terms
  let score2 : Rat := if etag ≠ "" ∧ (alookup s1.pkgs id).bind PkgRec.clone = some etag
    then 0 else score
  let old := splitSp (getRec s1 id).terms
  let new := splitSp terms2
  let s2 := putTermOps old new id s1
  let s3 := { s2 with badCrawl := sremL s2.badCrawl path,
                      newCrawl := sremL s2.newCrawl path }
  let s4 := if nextCrawl ≠ 0 then
      updRec { s3 with nextCrawl := aset s3.nextCrawl id nextCrawl } id
        (fun r => { r with crawl := some nextCrawl })
    else s3
  updRec s4 id fun r =>
    { r with path := path, synopsis := synopsis, score := score2, gob := gob,
             terms := terms2, etag := etag, kind := kind }

/-- `addCrawlScript`: admit each argument to `newCrawl` only if it is in
neither `ids` nor `badCrawl`. -/
def addCrawlScript : List String → Store → Store
  | [], s => s
  | pkg :: rest, s =>
    addCrawlScript rest
      (if (alookup s.ids pkg).isNone && !(s.badCrawl.contains pkg) then
        { s with newCrawl := saddL s.newCrawl pkg }
      else s)

/-- `deleteScript`: remove a record and all of its cross references. -/
def deleteScript (path : String) (s : Store) : Store :=
  match alookup s.ids path with
  | none => s
  | some id =>
    let s1 := (splitSp (getRec s id).terms).foldl
      (fun s t => sremIdx s ("index:" ++ t) id) s
    { s1 with nextCrawl := adel s1.nextCrawl id,
              newCrawl := sremL s1.newCrawl path,
              popular := sremL s1.popular id,
              pkgs := adel s1.pkgs id,
              ids := adel s1.ids path }

/-- `Block`: add the root to the `block` set, then delete every known path
equal to the root or extending it below a `/`. -/
def blockOp (root : String) (s : Store) : Store :=
  let s1 := { s with block := saddL s.block root }
  (s1.ids.map Prod.fst).foldl
    (fun s key =>
      if key == root || strStartsWith key (root ++ "/") then deleteScript key s
      else s)
    s1

/-- `isBlockedScript`: test every `/`-separated prefix of a path for
membership in `block`. -/
def isBlocked (s : Store) (path : String) : Bool :=
  let segs := fieldsFunc (fun c => c == '/') path.data
  (List.range segs.length).any fun i =>
    s.block.contains (String.intercalate "/" ((segs.take (i + 1)).map String.mk))

/-- Numeric ascending insertion step for `sortNat`. -/
def insNat (x : Nat) : List Nat → List Nat
  | [] => [x]
  | y :: t => if x ≤ y then x :: y :: t else y :: insNat x t

/-- Redis `SORT` of a set of numeric ids (default numeric ascending order). -/
def sortNat : List Nat → List Nat
  | [] => []
  | x :: t => insNat x (sortNat t)

/-- `setNextCrawlEtagScript`: for every package of the project whose stored
etag equals the argument, set both the `crawl` field and the `nextCrawl`
score to the given time.  The `SORT ... GET # GET pkg:*->etag` reply is
fetched before the loop body runs. -/
def setNextCrawlEtagScript (root etag : String) (nextCrawl : Int) (s : Store) : Store :=
  let pkgs := sortNat (idxSet s ("index:project:" ++ root))
  let pairs := pkgs.map fun id => (id, (alookup s.pkgs id).map PkgRec.etag)
  pairs.foldl
    (fun s p =>
      if p.2 = some etag then
        updRec { s with nextCrawl := aset s.nextCrawl p.1 nextCrawl } p.1
          (fun r => { r with crawl := some nextCrawl })
      else s)
    s

/-- `bumpCrawlScript`: clamp each project package `crawl` field down to `now`
when unset or later, and pack fresh `nextCrawl` scores starting at
`now + 3600` in steps of `120`. -/
def bumpCrawlScript (root : String) (now : Int) (s : Store) : Store :=
  let pkgs := sortNat (idxSet s ("index:project:" ++ root))
  (pkgs.foldl
    (fun acc id =>
      let s := acc.1
      let nc := acc.2
      let t := ((getRec s id).crawl).getD 0
      let s := if t = 0 ∨ now < t then updRec s id (fun r => { r with crawl := some now })
        else s
      let z := (alookup s.nextCrawl id).getD 0
      if z = 0 ∨ nc < z then ({ s with nextCrawl := aset s.nextCrawl id nc }, nc + 120)
      else (s, nc))
    (s, now + 3600)).1

/-- `SetNextCrawlEtag` (the Go wrapper normalizes the project root). -/
def SetNextCrawlEtag (root etag : String) (t : Int) (s : Store) : Store :=
  setNextCrawlEtagScript (normalizeProjectRoot root) etag t s

/-- `BumpCrawl` (the Go wrapper normalizes the project root and passes
`time.Now().Unix()`). -/
def BumpCrawl (root : String) (now : Int) (s : Store) : Store :=
  bumpCrawlScript (normalizeProjectRoot root) now s

/-! ## Lookup operations: getDoc, Query, Popular -/

/-- `ZRANGE nextCrawl 0 0`: the member with the least score (ties broken by
the lexicographic order of the decimal member strings, as in Redis). -/
def zrangeMin (l : List (Nat × Int)) : Option Nat :=
  (l.foldl
    (fun acc p =>
      match acc with
      | none => some p
      | some q =>
        if p.2 < q.2 ∨ (p.2 = q.2 ∧ Nat.repr p.1 < Nat.repr q.1) then some p else some q)
    none).map Prod.fst

/-- `getDocScript`: resolve the id (`"-"` means most overdue), fetch the gob
and the raw next-crawl number (`crawl` field, else zset score, else 0). -/
def getDocScript (s : Store) (path : String) : Option (Doc × Int) :=
  let idOpt := if path = "-" then zrangeMin s.nextCrawl else alookup s.ids path
  match idOpt with
  | none => none
  | some id =>
    match (getRec s id).gob with
    | none => none
    | some pdoc =>
      let t : Int :=
        match (getRec s id).crawl with
        | some c => c
        | none =>
          match alookup s.nextCrawl id with
          | some z => z
          | none => 0
      some (pdoc, t)

/-- `getDoc` / `GetDoc`: a `none` script reply (redis nil) becomes
`(nil, time.Time{}, nil)` — no error; otherwise the raw number 0 falls back
to the decoded document `Updated` field. -/
def getDoc (s : Store) (path : String) : Option Doc × Option Int :=
  match getDocScript s path with
  | none => (none, none)
  | some (pdoc, t) => (some pdoc, if t ≠ 0 then some t else pdoc.updated)

/-- A `(path, synopsis, kind)` triple fetched from `pkg:<id>`. -/
def tripleOf (s : Store) (id : Nat) : String × String × String :=
  ((getRec s id).path, (getRec s id).synopsis, (getRec s id).kind)

/-- One result entry: a path and synopsis. -/
structure Pkg where
  path : String
  synopsis : String
deriving DecidableEq

/-- The `packages` reply decoder with `all = false`: drop kind `d` entries
and substitute the canned synopsis of the pseudo-package `C`. -/
def packagesFilter (l : List (String × String × String)) : List Pkg :=
  l.filterMap fun t =>
    if t.2.2 == "d" then none
    else some
      { path := t.1,
        synopsis := if t.1 == "C" then
            "Package C is a \"pseudo-package\" used to access the C namespace from a cgo source file."
          else t.2.1 }

/-- `SINTERSTORE`: members of the first set present in all the others. -/
def sinterL : List (List Nat) → List Nat
  | [] => []
  | l :: ls => l.filter fun x => ls.all fun m => m.contains x

/-- Stable insertion for a descending sort by score. -/
def insDesc (key : Nat → Rat) (x : Nat) : List Nat → List Nat
  | [] => [x]
  | y :: t => if key y < key x then x :: y :: t else y :: insDesc key x t

/-- `SORT ... DESC BY pkg:*->score`: descending by score; the order among
equal scores is unspecified in Redis, the model fixes a stable one. -/
def sortDesc (key : Nat → Rat) : List Nat → List Nat
  | [] => []
  | x :: t => insDesc key x (sortDesc key t)

/-- The id list produced by the `SINTERSTORE` + `SORT` pipeline of `Query`. -/
def queryIds (sw : String → Bool) (st : String → String) (s : Store) (q : String) :
    List Nat :=
  sortDesc (fun id => (getRec s id).score)
    (sinterL ((parseQuery sw st q).map fun t => idxSet s ("index:" ++ t)))

/-- The decoded, `d`-filtered result list of `Query` before post-processing. -/
def queryCandidates (sw : String → Bool) (st : String → String) (s : Store) (q : String) :
    List Pkg :=
  packagesFilter ((queryIds sw st s q).map (tripleOf s))

/-- The scan of the promotion loop of `Query`: the first index whose entry is
still in the standard-package prefix and whose path ends in the raw query. -/
def swapIdx (q : String) : Nat → List Pkg → Option Nat
  | _, [] => none
  | i, p :: t =>
    if !isStandardPackage p.path then none
    else if strEndsWith p.path q then some i
    else swapIdx q (i + 1) t

/-- Exchange the elements at two positions (`pkgs[0], pkgs[i] = pkgs[i], pkgs[0]`). -/
def listSwap {α : Type} (l : List α) (i j : Nat) : List α :=
  match l.get? i, l.get? j with
  | some a, some b => (l.set i b).set j a
  | _, _ => l

/-- The post-processing loop of `Query`: move an exact standard-package
suffix match to the front. -/
def swapTop (q : String) (l : List Pkg) : List Pkg :=
  match swapIdx q 0 l with
  | none => l
  | some i => listSwap l 0 i

/-- `Query`: parse the query; an empty term list short-circuits to an empty
result (before any store command is issued); otherwise intersect the term
indexes, sort by score, decode, and promote an exact match. -/
def Query (sw : String → Bool) (st : String → String) (s : Store) (q : String) :
    List Pkg :=
  if parseQuery sw st q = [] then []
  else swapTop q (queryCandidates sw st s q)

/-- `ZREVRANGE popular start stop` over the member list in descending score
order, with the Redis index conventions (negative indexes count from the
end, out-of-range indexes are clamped). -/
def zrevrange (l : List Nat) (start stop : Int) : List Nat :=
  let n : Int := l.length
  let a := if start < 0 then max (n + start) 0 else start
  let b := min (if stop < 0 then n + stop else stop) (n - 1)
  if a > b then []
  else ((l.drop a.toNat).take (b - a + 1).toNat)

/-- `popularScript`: ids `ZREVRANGE popular 0 stop`, then their triples. -/
def popularScript (s : Store) (stop : Int) : List (String × String × String) :=
  (zrevrange s.popular 0 stop).map (tripleOf s)

/-- `Popular(count)`: passes `count - 1` as the inclusive stop index. -/
def Popular (s : Store) (count : Int) : List Pkg :=
  packagesFilter (popularScript s (count - 1))

/-! ## The Put pipeline -/

/-- The related paths enqueued after a full save: valid imports, test
imports and xtest imports, the project root when different, and the
subdirectories.  Go collects them in a `map[string]bool`; the enumeration
order is arbitrary and the admission operations commute, so the model uses
a fixed order with duplicates removed. -/
def relatedPaths (iv : String → Bool) (pdoc : Doc) : List String :=
  ((pdoc.imports.filter iv ++ pdoc.testImports.filter iv ++
      pdoc.xtestImports.filter iv ++
      (if pdoc.importPath ≠ pdoc.projectRoot ∧ pdoc.projectRoot ≠ "" then
        [pdoc.projectRoot] else []) ++
      pdoc.subdirectories.map fun p => pdoc.importPath ++ "/" ++ p)).dedup

/-- `Put`: compute rank and terms, encode, classify the kind, run
`putScript`, and for a nonzero next-crawl time enqueue the related paths.
`documentScore`, called here in the Go source, is not among the provided
sources; modelled from the spec: §4.3 says Put computes the rank of §4.2,
which is `documentRank`.  The 200 kB truncation re-encode affects only the
stored blob size and is not representable on the modelled blob. -/
def Put (sw : String → Bool) (st : String → String) (iv : String → Bool)
    (pdoc : Doc) (nextCrawl : Int) (s : Store) : Store :=
  let score := documentRank pdoc
  let terms := documentTerms sw st iv pdoc score
  let kind := if pdoc.name == "" then "d" else if pdoc.isCmd then "c" else "p"
  let s1 := putScript pdoc.importPath pdoc.synopsis score (some pdoc)
    (joinSp terms) pdoc.etag kind nextCrawl s
  if nextCrawl = 0 then s1
  else addCrawlScript (relatedPaths iv pdoc) s1

/-- `AddNewCrawl`: validate the path with the external validator, then run
the admission script on the single path. -/
def AddNewCrawl (ivr : String → Bool) (path : String) (s : Store) : Option Store :=
  if ivr path then some (addCrawlScript [path] s) else none

/-! ## Concrete parameter instances used by witnesses and counterexamples

`swNone` is the empty stop-word table, `stId` the identity stemmer, `ivAll`
the validator accepting everything: legitimate instances of the abstract
tokenizer parameters under which the concrete evaluations below run. -/

def swNone : String → Bool := fun _ => false

def stId : String → String := fun s => s

def ivAll : String → Bool := fun _ => true

/-! ## Claim C1: the crawl field / nextCrawl score agreement -/

/-- Spec invariant 3: whenever both the `crawl` hash field of a package and
its `nextCrawl` zset score are set, they are equal. -/
def crawlInv (s : Store) : Prop :=
  ∀ id c z, (getRec s id).crawl = some c → alookup s.nextCrawl id = some z → c = z

theorem getRec_eq_of_pkgs {s1 s2 : Store} (h : s1.pkgs = s2.pkgs) (i : Nat) :
    getRec s1 i = getRec s2 i := by
  simp [getRec, h]

theorem crawlInv_congr {s1 s2 : Store} (hp : s1.pkgs = s2.pkgs)
    (hn : s1.nextCrawl = s2.nextCrawl) (h : crawlInv s2) : crawlInv s1 := by
  intro i c z h1 h2
  rw [getRec_eq_of_pkgs hp] at h1
  rw [hn] at h2
  exact h i c z h1 h2

/-- A record update that does not change the `crawl` field preserves the
invariant. -/
theorem crawlInv_updRec_keep {s : Store} {id : Nat} {f : PkgRec → PkgRec}
    (hf : ∀ r, (f r).crawl = r.crawl) (h : crawlInv s) : crawlInv (updRec s id f) := by
  intro i c z h1 h2
  rw [updRec_nextCrawl] at h2
  by_cases hi : i = id
  · subst hi
    rw [getRec_updRec_self, hf] at h1
    exact h i c z h1 h2
  · rw [getRec_updRec_ne _ _ _ _ hi] at h1
    exact h i c z h1 h2

/-- Setting both the `crawl` field and the `nextCrawl` score of one id to
the same time preserves the invariant. -/
theorem crawlInv_setBoth {s : Store} (id : Nat) (t : Int) (h : crawlInv s) :
    crawlInv (updRec { s with nextCrawl := aset s.nextCrawl id t } id
      (fun r => { r with crawl := some t })) := by
  intro i c z h1 h2
  rw [updRec_nextCrawl] at h2
  by_cases hi : i = id
  · subst hi
    rw [getRec_updRec_self] at h1
    simp only at h1
    rw [alookup_aset_self] at h2
    cases h1
    cases h2
    rfl
  · rw [getRec_updRec_ne _ _ _ _ hi] at h1
    rw [show ({ s with nextCrawl := aset s.nextCrawl id t } : Store).pkgs = s.pkgs from rfl] at *
    rw [getRec_eq_of_pkgs (rfl) i] at h1
    dsimp only at h2
    rw [alookup_aset_ne _ _ _ _ hi] at h2
    exact h i c z h1 h2

theorem putEnsureId_pkgs (path : String) (s : Store) :
    (putEnsureId path s).2.pkgs = s.pkgs := by
  unfold putEnsureId
  cases alookup s.ids path <;> rfl

theorem putEnsureId_nextCrawl (path : String) (s : Store) :
    (putEnsureId path s).2.nextCrawl = s.nextCrawl := by
  unfold putEnsureId
  cases alookup s.ids path <;> rfl

theorem putEnsureId_index (path : String) (s : Store) :
    (putEnsureId path s).2.index = s.index := by
  unfold putEnsureId
  cases alookup s.ids path <;> rfl

theorem putTermOps_pkgs (old new : List String) (id : Nat) (s : Store) :
    (putTermOps old new id s).pkgs = s.pkgs := by
  unfold putTermOps
  apply foldl_preserve
  intro s t
  unfold putTermStep
  dsimp only
  repeat' split
  all_goals rfl

theorem putTermOps_nextCrawl (old new : List String) (id : Nat) (s : Store) :
    (putTermOps old new id s).nextCrawl = s.nextCrawl := by
  unfold putTermOps
  apply foldl_preserve
  intro s t
  unfold putTermStep
  dsimp only
  repeat' split
  all_goals rfl

theorem putTermOps_ids (old new : List String) (id : Nat) (s : Store) :
    (putTermOps old new id s).ids = s.ids := by
  unfold putTermOps
  apply foldl_preserve
  intro s t
  unfold putTermStep
  dsimp only
  repeat' split
  all_goals rfl

/-- `putScript` preserves the crawl/nextCrawl agreement: with a nonzero
`nextCrawl` it sets both to the same value for its id, and it touches
nothing else in `pkg:*->crawl` or the zset. -/
theorem crawlInv_putScript (path synopsis : String) (score : Rat) (gob : Option Doc)
    (terms etag kind : String) (nc : Int) (s : Store) (h : crawlInv s) :
    crawlInv (putScript path synopsis score gob terms etag kind nc s) := by
  unfold putScript
  dsimp only
  have h1 : crawlInv (putEnsureId path s).2 :=
    crawlInv_congr (putEnsureId_pkgs path s) (putEnsureId_nextCrawl path s) h
  set s1 := (putEnsureId path s).2 with hs1
  set id := (putEnsureId path s).1 with hid
  set terms2 := if etag ≠ "" ∧ (alookup s1.pkgs id).bind PkgRec.clone = some etag
    then "" else terms with hterms2
  set s2 := putTermOps (splitSp (getRec s1 id).terms) (splitSp terms2) id s1 with hs2
  have h2 : crawlInv s2 := crawlInv_congr (putTermOps_pkgs _ _ _ _)
    (putTermOps_nextCrawl _ _ _ _) h1
  set s3 := { s2 with badCrawl := sremL s2.badCrawl path,
                      newCrawl := sremL s2.newCrawl path } with hs3
  have h3 : crawlInv s3 := crawlInv_congr rfl rfl h2
  refine crawlInv_updRec_keep (fun r => rfl) ?_
  split
  · exact crawlInv_setBoth id nc h3
  · exact h3

/-- A property preserved by every step of a fold is preserved by the fold. -/
theorem foldl_pred {α : Type} (P : Store → Prop) (f : Store → α → Store)
    (h : ∀ s a, P s → P (f s a)) :
    ∀ (l : List α) (s : Store), P s → P (List.foldl f s l) := by
  intro l
  induction l with
  | nil => intro s hs; exact hs
  | cons a t ih => intro s hs; exact ih (f s a) (h s a hs)

/-- `deleteScript` preserves the crawl/nextCrawl agreement: it removes both
sides for its id and touches no other id. -/
theorem crawlInv_deleteScript (path : String) (s : Store) (h : crawlInv s) :
    crawlInv (deleteScript path s) := by
  unfold deleteScript
  cases hl : alookup s.ids path with
  | none => exact h
  | some id =>
    intro i c z h1 h2
    simp only [getRec] at h1 h2
    rw [foldl_preserve Store.pkgs (fun s t => sremIdx s ("index:" ++ t) id)
      (fun _ _ => rfl) _ _, alookup_adel] at h1
    rw [foldl_preserve Store.nextCrawl (fun s t => sremIdx s ("index:" ++ t) id)
      (fun _ _ => rfl) _ _, alookup_adel] at h2
    by_cases hi : i = id
    · simp [hi, emptyRec] at h1
    · simp only [hi, if_false] at h1 h2
      exact h i c z h1 h2

/-- `setNextCrawlEtagScript` preserves the agreement: every update writes the
same time to both sides of one id. -/
theorem crawlInv_setNextCrawlEtagScript (root etag : String) (nc : Int) (s : Store)
    (h : crawlInv s) : crawlInv (setNextCrawlEtagScript root etag nc s) := by
  unfold setNextCrawlEtagScript
  dsimp only
  apply foldl_pred crawlInv _ _ _ _ h
  intro s p hp
  split
  · exact crawlInv_setBoth p.1 nc hp
  · exact hp

/-- The concrete store of claim C1: one package of project `r` with agreeing
crawl field and score `10000`, far in the future of `now = 100`. -/
def c1s : Store :=
  { ids := [("x", 1)], maxPackageId := 1,
    pkgs := [(1, { path := "x", crawl := some 10000 })],
    index := [("index:project:r", [1])],
    nextCrawl := [(1, 10000)] }

theorem c1s_crawlInv : crawlInv c1s := by
  intro id c z h1 h2
  by_cases hi : id = 1
  · subst hi
    simp [c1s, getRec, alookup] at h1 h2
    rw [← h1, ← h2]
  · have hb : (1 == id) = false := by simpa using Ne.symm hi
    simp [c1s, getRec, alookup, hb, emptyRec] at h1

/-- Claim C1, counterexample: `BumpCrawl` does not maintain spec invariant 3.
On `c1s` (where the invariant holds) with `now = 100`, it clamps the `crawl`
field of package 1 down to `100` but packs its `nextCrawl` score to
`now + 3600 = 3700`, leaving the two set and different. -/
theorem c1_counterexample :
    crawlInv c1s ∧ ¬ crawlInv (BumpCrawl "r" 100 c1s) := by
  constructor
  · exact c1s_crawlInv
  · intro hinv
    exact absurd (hinv 1 100 3700 (by decide) (by decide)) (by decide)

/-- Claim C1 (amended): after `Put` with nonzero nextCrawl, after
`SetNextCrawlEtag`, and after `Delete`, every package id whose `crawl` hash
field and `nextCrawl` score are both set has them equal, provided the store
satisfied that invariant before; `BumpCrawl` is excluded because it breaks
the invariant (see the counterexample). -/
theorem c1_theorem (s : Store) (h : crawlInv s) :
    (∀ path synopsis score gob terms etag kind nc, nc ≠ (0 : Int) →
      crawlInv (putScript path synopsis score gob terms etag kind nc s)) ∧
    (∀ root etag t, crawlInv (SetNextCrawlEtag root etag t s)) ∧
    (∀ path, crawlInv (deleteScript path s)) :=
  ⟨fun path syn score gob terms etag kind nc _ =>
      crawlInv_putScript path syn score gob terms etag kind nc s h,
   fun root etag t =>
      crawlInv_setNextCrawlEtagScript (normalizeProjectRoot root) etag t s h,
   fun path => crawlInv_deleteScript path s h⟩

/-- Witness for C1: the three preserved mutators applied to the concrete
store `c1s`. -/
theorem c1_witness :
    crawlInv (putScript "p" "" 0 none "" "" "p" 5 c1s) ∧
    crawlInv (SetNextCrawlEtag "r" "" 77 c1s) ∧
    crawlInv (deleteScript "x" c1s) :=
  ⟨( c1_theorem c1s c1s_crawlInv).1 "p" "" 0 none "" "" "p" 5 (by decide),
   ( c1_theorem c1s c1s_crawlInv).2.1 "r" "" 77,
   ( c1_theorem c1s c1s_crawlInv).2.2 "x"⟩

/-! ## Claim C6: the AddCrawl admission -/

/-- Membership in `newCrawl` after a run of `addCrawlScript`: exactly the
previous members plus those arguments absent from both `ids` and
`badCrawl`. -/
theorem mem_newCrawl_addCrawlScript (args : List String) :
    ∀ (s : Store) (x : String),
      x ∈ (addCrawlScript args s).newCrawl ↔
        x ∈ s.newCrawl ∨ (x ∈ args ∧ alookup s.ids x = none ∧ x ∉ s.badCrawl) := by
  induction args with
  | nil => intro s x; simp [addCrawlScript]
  | cons a t ih =>
    intro s x
    rw [addCrawlScript]
    by_cases hc : ((alookup s.ids a).isNone && !(s.badCrawl.contains a)) = true
    · rw [if_pos hc]
      rw [ih]
      simp only [Bool.and_eq_true, Option.isNone_iff_eq_none, Bool.not_eq_true',
        List.elem_eq_mem, decide_eq_false_iff_not] at hc
      dsimp only
      simp only [mem_saddL, List.mem_cons]
      constructor
      · rintro ((hx | rfl) | ⟨hxt, hi1, hi2⟩)
        · exact Or.inl hx
        · exact Or.inr ⟨Or.inl rfl, hc.1, hc.2⟩
        · exact Or.inr ⟨Or.inr hxt, hi1, hi2⟩
      · rintro (hx | ⟨(rfl | hxt), hi1, hi2⟩)
        · exact Or.inl (Or.inl hx)
        · exact Or.inl (Or.inr rfl)
        · exact Or.inr ⟨hxt, hi1, hi2⟩
    · rw [if_neg hc]
      rw [ih]
      simp only [Bool.and_eq_true, Option.isNone_iff_eq_none, Bool.not_eq_true',
        List.elem_eq_mem, decide_eq_false_iff_not, not_and] at hc
      simp only [List.mem_cons]
      constructor
      · rintro (hx | ⟨hxt, hi1, hi2⟩)
        · exact Or.inl hx
        · exact Or.inr ⟨Or.inr hxt, hi1, hi2⟩
      · rintro (hx | ⟨(rfl | hxt), hi1, hi2⟩)
        · exact Or.inl hx
        · exact absurd (hc hi1) (by simpa using hi2)
        · exact Or.inr ⟨hxt, hi1, hi2⟩

/-- Claim C6 (amended): a completed run of the AddCrawl admission
(`AddNewCrawl(p)` or the related-path enqueue after `Put`) never adds to
`newCrawl` a path that is in `badCrawl` or already in `ids` — so such a path
is absent afterwards provided it was not already in `newCrawl`; paths
already present stay present (nothing removes them), and only paths absent
from both `ids` and `badCrawl` are ever added. -/
theorem c6_theorem (args : List String) (s : Store) (p : String)
    (hadm : (alookup s.ids p).isSome = true ∨ p ∈ s.badCrawl)
    (hnot : p ∉ s.newCrawl) :
    p ∉ (addCrawlScript args s).newCrawl ∧
    (∀ x ∈ (addCrawlScript args s).newCrawl,
      x ∈ s.newCrawl ∨ (x ∈ args ∧ alookup s.ids x = none ∧ x ∉ s.badCrawl)) := by
  constructor
  · intro hmem
    rcases (mem_newCrawl_addCrawlScript args s p).mp hmem with h | ⟨_, h1, h2⟩
    · exact hnot h
    · rcases hadm with ha | ha
      · rw [h1] at ha
        simp at ha
      · exact h2 ha
  · intro x hx
    exact (mem_newCrawl_addCrawlScript args s x).mp hx

/-- The concrete store of the C6 counterexample: `"x"` was admitted to
`newCrawl` first and marked bad afterwards (`AddBadCrawl` does not remove it
from `newCrawl`). -/
def c6s : Store :=
  { newCrawl := ["x"], badCrawl := ["x"] }

/-- Claim C6, counterexample: running the admission on `"x"` in a state
where `"x"` is in `badCrawl` but also still in `newCrawl` does not leave
`"x"` out of `newCrawl` — the script only declines to add, it never
removes, so the claimed conclusion `x` ∉ `newCrawl` fails. -/
theorem c6_counterexample :
    "x" ∈ c6s.badCrawl ∧ "x" ∈ (addCrawlScript ["x"] c6s).newCrawl := by
  constructor
  · decide
  · decide

/-- Witness for C6: with `"y"` registered in `ids`, an admission run on
`"y"` leaves it out of `newCrawl`. -/
def c6ws : Store :=
  { ids := [("y", 1)], maxPackageId := 1 }

theorem c6_witness :
    "y" ∉ (addCrawlScript ["y"] c6ws).newCrawl :=
  ( c6_theorem ["y"] c6ws "y" (Or.inl (by decide)) (by decide)).1

/-! ## Claim C2: blocked paths and Put -/

theorem mem_keys_of_alookup_isSome {κ β : Type} [BEq κ] [LawfulBEq κ]
    (l : List (κ × β)) (q : κ) (h : (alookup l q).isSome = true) :
    q ∈ l.map Prod.fst := by
  induction l with
  | nil => simp [alookup] at h
  | cons p t ih =>
    obtain ⟨k1, v⟩ := p
    by_cases hk : k1 = q
    · subst hk
      exact List.mem_cons_self _ _
    · have hb : (k1 == q) = false := by simpa using hk
      rw [alookup_cons, hb] at h
      simp only [Bool.false_eq_true, if_false] at h
      exact List.mem_cons_of_mem _ (ih h)

theorem deleteScript_ids (k p : String) (s : Store)
    (h : (alookup (deleteScript k s).ids p).isSome = true) :
    (alookup s.ids p).isSome = true ∧ p ≠ k := by
  unfold deleteScript at h
  cases hl : alookup s.ids k with
  | none =>
    rw [hl] at h
    refine ⟨h, ?_⟩
    rintro rfl
    rw [hl] at h
    simp at h
  | some id =>
    rw [hl] at h
    dsimp only at h
    rw [foldl_preserve Store.ids (fun s t => sremIdx s ("index:" ++ t) id)
      (fun _ _ => rfl) _ _, alookup_adel] at h
    by_cases hp : p = k
    · simp [hp] at h
    · rw [if_neg hp] at h
      exact ⟨h, hp⟩

theorem deleteScript_block (k : String) (s : Store) :
    (deleteScript k s).block = s.block := by
  unfold deleteScript
  cases alookup s.ids k with
  | none => rfl
  | some id =>
    dsimp only
    exact foldl_preserve Store.block (fun s t => sremIdx s ("index:" ++ t) id)
      (fun _ _ => rfl) _ _

/-- After the deletion sweep of `Block`, no surviving id maps to a path that
matches the blocked root, provided every matching path of the starting state
is in the swept key list. -/
theorem block_sweep (root : String) :
    ∀ (ks : List String) (s : Store),
      (∀ q, (alookup s.ids q).isSome = true →
        (q == root || strStartsWith q (root ++ "/")) = true → q ∈ ks) →
      ∀ p, (alookup ((ks.foldl
          (fun s key => if key == root || strStartsWith key (root ++ "/") then
            deleteScript key s else s) s)).ids p).isSome = true →
        (p == root || strStartsWith p (root ++ "/")) = false := by
  intro ks
  induction ks with
  | nil =>
    intro s hcov p hp
    by_cases hm : (p == root || strStartsWith p (root ++ "/")) = true
    · exact absurd (hcov p hp hm) (List.not_mem_nil p)
    · simpa using hm
  | cons k t ih =>
    intro s hcov p hp
    rw [List.foldl_cons] at hp
    refine ih _ ?_ p hp
    intro q hq hqm
    by_cases hk : (k == root || strStartsWith k (root ++ "/")) = true
    · rw [if_pos hk] at hq
      obtain ⟨hq1, hq2⟩ := deleteScript_ids k q s hq
      have := hcov q hq1 hqm
      rcases List.mem_cons.mp this with h | h
      · exact absurd h hq2
      · exact h
    · rw [if_neg hk] at hq
      have := hcov q hq hqm
      rcases List.mem_cons.mp this with h | h
      · subst h
        exact absurd hqm hk
      · exact h

/-- Claim C2 (amended): immediately after `Block(root)`, the root is in the
`block` set and no id in `pkg:*` maps to a path equal to the root or
extending it below a `/`.  A later `Put` of a blocked path is NOT prevented:
`putScript` never consults `block` (see the counterexample). -/
theorem c2_theorem (root : String) (s : Store) (p : String)
    (h : (alookup (blockOp root s).ids p).isSome = true) :
    root ∈ (blockOp root s).block ∧
    (p == root || strStartsWith p (root ++ "/")) = false := by
  constructor
  · unfold blockOp
    have hb : ((({ s with block := saddL s.block root } : Store).ids.map Prod.fst).foldl
        (fun s key => if key == root || strStartsWith key (root ++ "/") then
          deleteScript key s else s) { s with block := saddL s.block root }).block =
        ({ s with block := saddL s.block root } : Store).block := by
      apply foldl_preserve
      intro s k
      split
      · exact deleteScript_block k s
      · rfl
    rw [hb]
    exact (mem_saddL s.block root root).mpr (Or.inr rfl)
  · unfold blockOp at h
    refine block_sweep root _ _ ?_ p h
    intro q hq _
    exact mem_keys_of_alookup_isSome _ q hq

/-- The document of the C2 counterexample: a package whose import path lies
strictly below the blocked root. -/
def c2doc : Doc :=
  { importPath := "example.com/evil/x", name := "x", funcs := 1 }

set_option maxRecDepth 8000 in
/-- Claim C2, counterexample: after `Block("example.com/evil")` on the empty
store, a `Put` of `example.com/evil/x` re-creates the record: `IsBlocked` is
true for the path, yet `Exists` is true after the `Put`, because `putScript`
never checks the `block` set. -/
theorem c2_counterexample :
    isBlocked (Put swNone stId ivAll c2doc 0 (blockOp "example.com/evil" emptyStore))
      "example.com/evil/x" = true ∧
    existsPath (Put swNone stId ivAll c2doc 0 (blockOp "example.com/evil" emptyStore))
      "example.com/evil/x" = true := by
  constructor
  · decide
  · decide

/-- The store of the C2 witness: one package outside the blocked root and
one inside it. -/
def c2ws : Store :=
  { ids := [("a.com/b", 1), ("example.com/evil/y", 2)], maxPackageId := 2,
    pkgs := [(1, { path := "a.com/b" }), (2, { path := "example.com/evil/y" })] }

theorem c2_witness :
    "example.com/evil" ∈ (blockOp "example.com/evil" c2ws).block ∧
    ("a.com/b" == "example.com/evil" ||
      strStartsWith "a.com/b" ("example.com/evil" ++ "/")) = false :=
  c2_theorem "example.com/evil" c2ws "a.com/b" (by decide)

/-! ## Claim C7: the empty parsed query -/

/-- Claim C7: for every query string whose parsed term list is empty, `Query`
returns an empty result list for every store state.  In the Go code the
empty-terms branch returns `nil, nil` before borrowing a connection, so no
store lookup is issued and no error can be returned; store-independence of
the result is expressed by quantifying over the whole store. -/
theorem c7_theorem (sw : String → Bool) (st : String → String) (s : Store) (q : String)
    (h : parseQuery sw st q = []) : Query sw st s q = [] := by
  unfold Query
  rw [if_pos h]

/-- Witness for C7: a query of separators and a stop word parses to nothing
and returns no results on a populated store. -/
def swThe : String → Bool := fun s => s == "the"

theorem c7_witness :
    parseQuery swThe stId " the , . " = [] ∧ Query swThe stId c2ws " the , . " = [] :=
  ⟨by decide, c7_theorem swThe stId c2ws " the , . " (by decide)⟩

/-! ## Claim C8: getDoc not-found and next-crawl derivation -/

/-- Claim C8 (amended): for a path absent from `ids` (and for `"-"` when
`nextCrawl` is empty) `getDoc` returns a nil document and the zero time with
no error.  For a present path, the returned time is the `crawl` hash field
when that field is present AND nonzero; else the `nextCrawl` score when the
field is absent and the score is present and nonzero; in every remaining
case (field or score equal to 0, or both absent) it is the document's own
`Updated` value — the raw value 0 always falls through to `Updated`, which
is what the counterexample exhibits. -/
theorem c8_theorem (s : Store) (p : String) :
    (p ≠ "-" → alookup s.ids p = none → getDoc s p = (none, none)) ∧
    (s.nextCrawl = [] → getDoc s "-" = (none, none)) ∧
    (∀ id r pdoc, p ≠ "-" → alookup s.ids p = some id →
      alookup s.pkgs id = some r → r.gob = some pdoc →
      ((∀ c, r.crawl = some c → c ≠ 0 → getDoc s p = (some pdoc, some c)) ∧
       (∀ z, r.crawl = none → alookup s.nextCrawl id = some z → z ≠ 0 →
         getDoc s p = (some pdoc, some z)) ∧
       ((r.crawl = some 0 ∨ (r.crawl = none ∧ (alookup s.nextCrawl id = none ∨
          alookup s.nextCrawl id = some 0))) →
         getDoc s p = (some pdoc, pdoc.updated)))) := by
  refine ⟨?_, ?_, ?_⟩
  · intro h1 h2
    simp [getDoc, getDocScript, h1, h2]
  · intro h
    simp [getDoc, getDocScript, h, zrangeMin]
  · intro id r pdoc hne hid hr hgob
    refine ⟨?_, ?_, ?_⟩
    · intro c hc hcne
      simp [getDoc, getDocScript, getRec, hne, hid, hr, hgob, hc, hcne]
    · intro z hc hz hzne
      simp [getDoc, getDocScript, getRec, hne, hid, hr, hgob, hc, hz, hzne]
    · rintro (hc | ⟨hc, hz | hz⟩)
      · simp [getDoc, getDocScript, getRec, hne, hid, hr, hgob, hc]
      · simp [getDoc, getDocScript, getRec, hne, hid, hr, hgob, hc, hz]
      · simp [getDoc, getDocScript, getRec, hne, hid, hr, hgob, hc, hz]

/-- The document of the C8 counterexample, with a nonzero `Updated` time. -/
def c8doc : Doc :=
  { importPath := "p", updated := some 999 }

/-- The C8 counterexample store: the `crawl` hash field of the package is
present and holds `0` (reachable through `SetNextCrawlEtag` with the Unix
epoch as time, which writes `0` to both the field and the zset). -/
def c8s : Store :=
  { ids := [("p", 1)], maxPackageId := 1,
    pkgs := [(1, { path := "p", gob := some c8doc, crawl := some 0 })] }

/-- Claim C8, counterexample: the `crawl` hash field is present (value `0`),
but the returned next-crawl time is the document's `Updated` value, not the
time `time.Unix(0)` taken from the field: a present field does not decide
the result, a present NONZERO field does. -/
theorem c8_counterexample :
    (getRec c8s 1).crawl = some 0 ∧
    getDoc c8s "p" = (some c8doc, c8doc.updated) ∧
    c8doc.updated ≠ some 0 := by
  refine ⟨by decide, by decide, by decide⟩

def c8wdoc : Doc :=
  { importPath := "w", updated := some 111 }

def c8wrec : PkgRec :=
  { path := "w", gob := some c8wdoc, crawl := some 5 }

def c8ws : Store :=
  { ids := [("w", 1)], maxPackageId := 1, pkgs := [(1, c8wrec)] }

/-- Witness for C8: a present path with a nonzero crawl field yields that
field as the time; an absent path yields the nil/zero/no-error triple. -/
theorem c8_witness :
    getDoc c8ws "w" = (some c8wdoc, some 5) ∧ getDoc c8ws "nope" = (none, none) :=
  ⟨(( c8_theorem c8ws "w").2.2 1 c8wrec c8wdoc (by decide) (by decide) (by decide)
      (by decide)).1 5 (by decide) (by decide),
   ( c8_theorem c8ws "nope").1 (by decide) (by decide)⟩

/-! ## Claim C9: Popular(0) returns the whole set -/

/-- `ZREVRANGE l 0 -1` is the whole list: `-1` denotes the last element. -/
theorem zrevrange_all (l : List Nat) : zrevrange l 0 (-1) = l := by
  unfold zrevrange
  dsimp only
  rw [if_neg (show ¬ ((0:Int) < 0) by omega), if_pos (show ((-1):Int) < 0 by omega)]
  have he : ((l.length : Int) + (-1)) = (l.length : Int) - 1 := by ring
  rw [he, min_self]
  cases l with
  | nil => simp
  | cons x t =>
    rw [if_neg (show ¬ ((0:Int) > ((x :: t).length : Int) - 1) by
      simp [List.length_cons])]
    have ht : (((x :: t).length : Int) - 1 - 0 + 1).toNat = (x :: t).length := by
      omega
    rw [ht]
    simp [List.take_length]

/-- Claim C9: `Popular(0)` passes `-1` as the inclusive stop index, which
Redis reads as the last element, so the result is the entire popular
membership in stored (descending score) order, minus kind `d` — not the
empty list.  The hypothesis that every popular id has a `pkg:<id>` hash
keeps the model inside the well-defined region of the Lua reply conversion. -/
theorem c9_theorem (s : Store)
    (_h : ∀ id ∈ s.popular, (alookup s.pkgs id).isSome = true) :
    Popular s 0 = packagesFilter (s.popular.map (tripleOf s)) := by
  unfold Popular popularScript
  have h0 : (0 : Int) - 1 = -1 := by norm_num
  rw [h0, zrevrange_all]

/-- The C9 witness store: two popular packages, the top one of kind `d`. -/
def c9ws : Store :=
  { pkgs := [(1, { path := "a", kind := "p" }), (2, { path := "b", kind := "d" })],
    popular := [2, 1] }

theorem c9_witness :
    Popular c9ws 0 = packagesFilter (c9ws.popular.map (tripleOf c9ws)) ∧
    Popular c9ws 0 = [{ path := "a", synopsis := "" }] :=
  ⟨ c9_theorem c9ws (by decide), by decide⟩

/-! ## Claim C3: the document rank formula -/

/-- The nonzero-rank eligibility conditions named by claim C3. -/
def rankEligible (pdoc : Doc) : Prop :=
  pdoc.name ≠ "" ∧ pdoc.isCmd = false ∧ pdoc.errors = 0 ∧
  strEndsWith pdoc.importPath ".go" = false ∧
  (∀ p ∈ pdoc.imports, strEndsWith p ".go" = false) ∧
  (pdoc.truncated = true ∨ pdoc.consts ≠ 0 ∨ pdoc.vars ≠ 0 ∨ pdoc.funcs ≠ 0 ∨
    pdoc.types ≠ 0 ∨ pdoc.examples ≠ 0)

/-- The base rank and the two multipliers, as the claim states them. -/
def rankFormula (pdoc : Doc) : Rat :=
  (if isStandardPackage pdoc.importPath then (1000 : Rat)
   else if strStartsWith pdoc.importPath "code.google.com/p/go." then 500
   else if strStartsWith pdoc.synopsis ("Package " ++ pdoc.name ++ " ") then 100
   else if pdoc.synopsis.data.length > 0 then 10 else 1) *
  (if strIndex (pdoc.importPath.data.drop pdoc.projectRoot.length) "/src/".data > 0
    then 85 / 100 else 1) *
  (if pathBase pdoc.importPath.data ≠ pdoc.name.data then 9 / 10 else 1)

theorem documentRank_of_eligible (pdoc : Doc) (h : rankEligible pdoc) :
    documentRank pdoc = rankFormula pdoc := by
  obtain ⟨h1, h2, h3, h4, h5, h6⟩ := h
  have g1 : (pdoc.name == "" || pdoc.isCmd || decide (pdoc.errors ≠ 0) ||
      strEndsWith pdoc.importPath ".go") = false := by
    simp [h1, h2, h3, h4]
  have g2 : (pdoc.imports.any fun p => strEndsWith p ".go") = false := by
    rw [List.any_eq_false]
    intro p hp
    simp [h5 p hp]
  have g3 : (!pdoc.truncated && decide (pdoc.consts = 0) && decide (pdoc.vars = 0) &&
      decide (pdoc.funcs = 0) && decide (pdoc.types = 0) &&
      decide (pdoc.examples = 0)) = false := by
    rcases h6 with h | h | h | h | h | h <;> simp [h]
  unfold documentRank rankFormula
  rw [g1, g2, g3]
  simp only [Bool.false_eq_true, if_false]
  by_cases hsrc : strIndex (pdoc.importPath.data.drop pdoc.projectRoot.length)
      "/src/".data > 0 <;>
    by_cases hbase : pathBase pdoc.importPath.data ≠ pdoc.name.data <;>
      simp only [hsrc, hbase, if_pos, if_neg, if_true, if_false, qmul_eq,
        rat85_eq, rat90_eq] <;>
      split_ifs <;> ring

theorem documentRank_of_not_eligible (pdoc : Doc) (h : ¬ rankEligible pdoc) :
    documentRank pdoc = 0 := by
  unfold documentRank
  by_cases g1 : (pdoc.name == "" || pdoc.isCmd || decide (pdoc.errors ≠ 0) ||
      strEndsWith pdoc.importPath ".go") = true
  · rw [if_pos g1]
  · rw [if_neg g1]
    by_cases g2 : (pdoc.imports.any fun p => strEndsWith p ".go") = true
    · rw [if_pos g2]
    · rw [if_neg g2]
      by_cases g3 : (!pdoc.truncated && decide (pdoc.consts = 0) &&
          decide (pdoc.vars = 0) && decide (pdoc.funcs = 0) &&
          decide (pdoc.types = 0) && decide (pdoc.examples = 0)) = true
      · rw [if_pos g3]
      · exfalso
        apply h
        have hn : pdoc.name ≠ "" := by
          intro hx
          exact g1 (by simp [hx])
        have hc : pdoc.isCmd = false := by
          by_contra hx
          rw [Bool.not_eq_false] at hx
          exact g1 (by simp [hx])
        have he : pdoc.errors = 0 := by
          by_contra hx
          exact g1 (by simp [hx])
        have hg : strEndsWith pdoc.importPath ".go" = false := by
          by_contra hx
          rw [Bool.not_eq_false] at hx
          exact g1 (by simp [hx])
        refine ⟨hn, hc, he, hg, ?_, ?_⟩
        · intro p hp
          by_contra hpe
          apply g2
          rw [List.any_eq_true]
          exact ⟨p, hp, by simpa using hpe⟩
        · simp only [Bool.and_eq_true, Bool.not_eq_true', decide_eq_true_eq,
            not_and] at g3
          by_cases ht : pdoc.truncated = true
          · exact Or.inl ht
          · have ht2 : pdoc.truncated = false := by simpa using ht
            by_cases hc1 : pdoc.consts = 0
            · by_cases hc2 : pdoc.vars = 0
              · by_cases hc3 : pdoc.funcs = 0
                · by_cases hc4 : pdoc.types = 0
                  · by_cases hc5 : pdoc.examples = 0
                    · exact absurd hc5 (g3 ⟨⟨⟨⟨ht2, hc1⟩, hc2⟩, hc3⟩, hc4⟩)
                    · exact Or.inr (Or.inr (Or.inr (Or.inr (Or.inr hc5))))
                  · exact Or.inr (Or.inr (Or.inr (Or.inr (Or.inl hc4))))
                · exact Or.inr (Or.inr (Or.inr (Or.inl hc3)))
              · exact Or.inr (Or.inr (Or.inl hc2))
            · exact Or.inr (Or.inl hc1)

theorem rankFormula_ne_zero (pdoc : Doc) : rankFormula pdoc ≠ 0 := by
  unfold rankFormula
  apply mul_ne_zero
  apply mul_ne_zero
  · split_ifs <;> norm_num
  · split_ifs <;> norm_num
  · split_ifs <;> norm_num

/-- Claim C3 (amended): a rank is nonzero exactly under the eligibility
conditions, and then equals the base (1000 standard / 500 legacy subrepo /
100 "Package name " synopsis / 10 nonempty synopsis / 1) times 0.85 when
`/src/` occurs at a POSITIVE index of the path part below the project root
(an occurrence at index 0 — a first segment `src` directly below the root —
does not fire, because the code tests `strings.Index(...) > 0`), times 0.9
when the last path component differs from the package name. -/
theorem c3_theorem (pdoc : Doc) :
    (documentRank pdoc ≠ 0 ↔ rankEligible pdoc) ∧
    (documentRank pdoc ≠ 0 → documentRank pdoc = rankFormula pdoc) := by
  have hiff : documentRank pdoc ≠ 0 ↔ rankEligible pdoc := by
    constructor
    · intro hne
      by_contra hnE
      exact hne (documentRank_of_not_eligible pdoc hnE)
    · intro hE
      rw [documentRank_of_eligible pdoc hE]
      exact rankFormula_ne_zero pdoc
  exact ⟨hiff, fun hne => documentRank_of_eligible pdoc (hiff.mp hne)⟩

/-- The C3 counterexample document: project root `a.com`, import path
`a.com/src/b` — the part below the root is `/src/b`, which contains `/src/`
at index 0. -/
def c3doc : Doc :=
  { importPath := "a.com/src/b", projectRoot := "a.com", name := "b", funcs := 1 }

/-- Claim C3, counterexample: the part of the import path below the project
root contains a `/src/` segment (at index 0), so the claim predicts rank
`1 * 0.85 = 0.85`; the code tests `Index(...) > 0` and computes rank `1`. -/
theorem c3_counterexample :
    strIndex (c3doc.importPath.data.drop c3doc.projectRoot.length) "/src/".data = 0 ∧
    documentRank c3doc = 1 ∧
    (1 : Rat) ≠ 85 / 100 := by
  refine ⟨by decide, by decide, by norm_num⟩

/-- The C3 witness document: the standard package `bytes`. -/
def c3wdoc : Doc :=
  { importPath := "bytes", name := "bytes",
    synopsis := "Package bytes implements functions for byte slices.", funcs := 3 }

theorem c3_witness :
    documentRank c3wdoc ≠ 0 ∧ documentRank c3wdoc = rankFormula c3wdoc ∧
    documentRank c3wdoc = 1000 :=
  ⟨by decide, ( c3_theorem c3wdoc).2 (by decide), by decide⟩

/-! ## Claim C4: the "package" synopsis-token filter -/

theorem mem_insertTerm_of_mem {l : List String} {x : String} (t : String) (h : x ∈ l) :
    x ∈ insertTerm l t := by
  unfold insertTerm
  split
  · exact h
  · exact List.mem_append_left _ h

theorem self_mem_insertTerm (l : List String) (t : String) : t ∈ insertTerm l t := by
  unfold insertTerm
  split
  · assumption
  · exact List.mem_append_right _ (List.mem_singleton.mpr rfl)

theorem mem_insertTerms_of_mem {x : String} :
    ∀ (ts : List String) (l : List String), x ∈ l → x ∈ insertTerms l ts := by
  intro ts
  induction ts with
  | nil => intro l h; exact h
  | cons a r ih => intro l h; exact ih _ (mem_insertTerm_of_mem a h)

theorem mem_insertTerms_of_mem_ts {x : String} :
    ∀ (ts : List String) (l : List String), x ∈ ts → x ∈ insertTerms l ts := by
  intro ts
  induction ts with
  | nil => intro l h; exact absurd h (List.not_mem_nil x)
  | cons a r ih =>
    intro l h
    rcases List.mem_cons.mp h with rfl | h
    · exact mem_insertTerms_of_mem r _ (self_mem_insertTerm l x)
    · exact ih _ h

/-- Any stem produced by the synopsis loop ends up in the document term set
when the rank is positive. -/
theorem mem_documentTerms_of_mem_synopsisTerms (sw : String → Bool)
    (st : String → String) (iv : String → Bool) (pdoc : Doc) (rank : Rat)
    (hrank : rank > 0) {x : String} (hx : x ∈ synopsisTerms sw st pdoc.synopsis) :
    x ∈ documentTerms sw st iv pdoc rank := by
  unfold documentTerms
  rw [if_pos hrank]
  dsimp only
  split
  · exact mem_insertTerm_of_mem _ (mem_insertTerms_of_mem_ts _ _ hx)
  · exact mem_insertTerms_of_mem_ts _ _ hx

/-- Claim C4 (amended): the synopsis filter drops the token `"package"`
exactly at the first FOUR token positions (0-based index at most 3) — not
three as claimed: the code keeps it only under `i > 3`.  At every later
position the token is stemmed and lands in the persisted term set of any
positive-rank document (the stop-word table must not contain `"package"`,
which the spec sentence presupposes by saying it is otherwise kept). -/
theorem c4_theorem :
    (∀ (sw : String → Bool) (i : Nat), sw "package" = false →
      (keepSynToken sw i "package" = true ↔ 3 < i)) ∧
    (∀ (sw : String → Bool) (st : String → String) (iv : String → Bool)
      (pdoc : Doc) (i : Nat),
      sw "package" = false → documentRank pdoc > 0 →
      (synopsisTokens pdoc.synopsis).get? i = some "package" → 3 < i →
      st "package" ∈ documentTerms sw st iv pdoc (documentRank pdoc)) := by
  constructor
  · intro sw i hsw
    unfold keepSynToken
    simp [hsw]
  · intro sw st iv pdoc i hsw hrank hget hi
    refine mem_documentTerms_of_mem_synopsisTerms sw st iv pdoc _ hrank ?_
    unfold synopsisTerms
    apply List.mem_filterMap.mpr
    refine ⟨(i, "package"), ?_, ?_⟩
    · apply List.get?_mem
      rw [List.get?_eq_getElem?] at hget ⊢
      rw [List.getElem?_enum, hget]
      rfl
    · have hkeep : keepSynToken sw i "package" = true := by
        unfold keepSynToken
        simp [hsw, hi]
      rw [if_pos hkeep]

/-- The C4 counterexample document: `"package"` is the fourth synopsis token
(0-based index 3), outside the first three, yet it is dropped. -/
def c4doc : Doc :=
  { importPath := "x", name := "a", synopsis := "a b c package", funcs := 1 }

/-- Claim C4, counterexample: with the identity stemmer and the empty
stop-word table, the token `"package"` at index 3 — the fourth token, not
among the first three — is NOT in the persisted term set of this
positive-rank document: the code also drops index 3. -/
theorem c4_counterexample :
    (synopsisTokens c4doc.synopsis).get? 3 = some "package" ∧
    documentRank c4doc > 0 ∧
    "package" ∉ documentTerms swNone stId ivAll c4doc (documentRank c4doc) := by
  refine ⟨by decide, by decide, by decide⟩

/-- The C4 witness document: `"package"` at index 4. -/
def c4wdoc : Doc :=
  { importPath := "x", name := "a", synopsis := "a b c d package", funcs := 1 }

theorem c4_witness :
    keepSynToken swNone 5 "package" = true ∧
    "package" ∈ documentTerms swNone stId ivAll c4wdoc (documentRank c4wdoc) :=
  ⟨( c4_theorem.1 swNone 5 rfl).mpr (by decide),
   c4_theorem.2 swNone stId ivAll c4wdoc 4 rfl (by decide) (by decide) (by decide)⟩

/-! ## Claim C5: Query results -/

/-- The promotion condition of the `Query` post-processing loop at index
`i`: the entry is a standard package whose path ends in the raw query, and
every earlier entry is a standard package that does not. -/
def promoted (q : String) (L : List Pkg) (i : Nat) : Prop :=
  ∃ p, L.get? i = some p ∧ isStandardPackage p.path = true ∧
    strEndsWith p.path q = true ∧
    ∀ j pj, j < i → L.get? j = some pj →
      isStandardPackage pj.path = true ∧ strEndsWith pj.path q = false

theorem promoted_cons_zero (q : String) (p : Pkg) (t : List Pkg) :
    promoted q (p :: t) 0 ↔ isStandardPackage p.path = true ∧ strEndsWith p.path q = true := by
  constructor
  · rintro ⟨p2, hget, hstd, hsuf, _⟩
    rw [List.get?_cons_zero] at hget
    cases hget
    exact ⟨hstd, hsuf⟩
  · rintro ⟨hstd, hsuf⟩
    exact ⟨p, List.get?_cons_zero, hstd, hsuf, fun j pj hj _ => absurd hj (Nat.not_lt_zero j)⟩

theorem promoted_cons_succ (q : String) (p : Pkg) (t : List Pkg) (i : Nat) :
    promoted q (p :: t) (i + 1) ↔
      (isStandardPackage p.path = true ∧ strEndsWith p.path q = false) ∧
      promoted q t i := by
  constructor
  · rintro ⟨p2, hget, hstd, hsuf, hpre⟩
    rw [List.get?_cons_succ] at hget
    have hp := hpre 0 p (Nat.succ_pos i) List.get?_cons_zero
    refine ⟨hp, p2, hget, hstd, hsuf, ?_⟩
    intro j pj hj hgj
    exact hpre (j + 1) pj (Nat.succ_lt_succ hj) (by rw [List.get?_cons_succ]; exact hgj)
  · rintro ⟨⟨hstd0, hsuf0⟩, p2, hget, hstd, hsuf, hpre⟩
    refine ⟨p2, by rw [List.get?_cons_succ]; exact hget, hstd, hsuf, ?_⟩
    intro j pj hj hgj
    cases j with
    | zero =>
      rw [List.get?_cons_zero] at hgj
      cases hgj
      exact ⟨hstd0, hsuf0⟩
    | succ j2 =>
      rw [List.get?_cons_succ] at hgj
      exact hpre j2 pj (Nat.lt_of_succ_lt_succ hj) hgj

theorem swapIdx_shift (q : String) :
    ∀ (l : List Pkg) (k : Nat), swapIdx q (k + 1) l = (swapIdx q k l).map (fun n => n + 1) := by
  intro l
  induction l with
  | nil => intro k; rfl
  | cons p t ih =>
    intro k
    unfold swapIdx
    split
    · rfl
    · split
      · rfl
      · exact ih (k + 1)

/-- The promotion loop finds exactly the least promotable index. -/
theorem swapIdx_some_iff (q : String) :
    ∀ (L : List Pkg) (i : Nat), swapIdx q 0 L = some i ↔ promoted q L i := by
  intro L
  induction L with
  | nil =>
    intro i
    constructor
    · intro h; cases h
    · rintro ⟨p, hget, _⟩
      rw [List.get?_nil] at hget
      cases hget
  | cons p t ih =>
    intro i
    unfold swapIdx
    by_cases hstd : isStandardPackage p.path = true
    · rw [hstd]
      simp only [Bool.not_true, Bool.false_eq_true, if_false]
      by_cases hsuf : strEndsWith p.path q = true
      · rw [if_pos hsuf]
        constructor
        · intro h
          cases h
          exact (promoted_cons_zero q p t).mpr ⟨hstd, hsuf⟩
        · intro hp
          cases i with
          | zero => rfl
          | succ i2 =>
            obtain ⟨⟨_, hsuf0⟩, _⟩ := (promoted_cons_succ q p t i2).mp hp
            rw [hsuf] at hsuf0
            cases hsuf0
      · rw [if_neg hsuf]
        rw [swapIdx_shift q t 0]
        cases i with
        | zero =>
          constructor
          · intro h
            cases ho : swapIdx q 0 t with
            | none => rw [ho] at h; cases h
            | some n => rw [ho] at h; simp at h
          · intro hp
            obtain ⟨_, hsuf0⟩ := (promoted_cons_zero q p t).mp hp
            exact absurd hsuf0 hsuf
        | succ i2 =>
          constructor
          · intro h
            cases ho : swapIdx q 0 t with
            | none => rw [ho] at h; cases h
            | some n =>
              rw [ho] at h
              simp only [Option.map_some'] at h
              have hn : n = i2 := by
                injection h with h2
                omega
              subst hn
              exact (promoted_cons_succ q p t n).mpr
                ⟨⟨hstd, by simpa using hsuf⟩, (ih n).mp ho⟩
          · intro hp
            obtain ⟨_, hp2⟩ := (promoted_cons_succ q p t i2).mp hp
            rw [(ih i2).mpr hp2]
            rfl
    · have hstd2 : isStandardPackage p.path = false := by simpa using hstd
      rw [hstd2]
      simp only [Bool.not_false, if_true]
      constructor
      · intro h; cases h
      · intro hp
        exfalso
        cases i with
        | zero =>
          obtain ⟨hstd0, _⟩ := (promoted_cons_zero q p t).mp hp
          exact hstd hstd0
        | succ i2 =>
          obtain ⟨⟨hstd0, _⟩, _⟩ := (promoted_cons_succ q p t i2).mp hp
          exact hstd hstd0

theorem swapIdx_none_iff (q : String) (L : List Pkg) :
    swapIdx q 0 L = none ↔ ∀ i, ¬ promoted q L i := by
  constructor
  · intro h i hp
    rw [← swapIdx_some_iff q L i] at hp
    rw [h] at hp
    cases hp
  · intro h
    cases ho : swapIdx q 0 L with
    | none => rfl
    | some n => exact absurd ((swapIdx_some_iff q L n).mp ho) (h n)

theorem mem_listSwap {α : Type} (l : List α) (i j : Nat) (x : α)
    (h : x ∈ listSwap l i j) : x ∈ l := by
  unfold listSwap at h
  cases hi : l.get? i with
  | none => rw [hi] at h; exact h
  | some a =>
    cases hj : l.get? j with
    | none => rw [hi, hj] at h; exact h
    | some b =>
      rw [hi, hj] at h
      rcases List.mem_or_eq_of_mem_set h with h2 | h2
      · rcases List.mem_or_eq_of_mem_set h2 with h3 | h3
        · exact h3
        · subst h3; exact List.get?_mem hj
      · subst h2; exact List.get?_mem hi

theorem mem_insDesc (key : Nat → Rat) (x z : Nat) :
    ∀ (l : List Nat), z ∈ insDesc key x l ↔ z = x ∨ z ∈ l := by
  intro l
  induction l with
  | nil => simp [insDesc]
  | cons y t ih =>
    unfold insDesc
    split
    · simp [List.mem_cons]
    · simp only [List.mem_cons, ih]
      tauto

theorem pairwise_insDesc (key : Nat → Rat) (x : Nat) :
    ∀ (l : List Nat), List.Pairwise (fun a b => key b ≤ key a) l →
      List.Pairwise (fun a b => key b ≤ key a) (insDesc key x l) := by
  intro l
  induction l with
  | nil => intro _; exact List.pairwise_singleton _ _
  | cons y t ih =>
    intro hp
    rcases List.pairwise_cons.mp hp with ⟨hy, ht⟩
    unfold insDesc
    split
    · rename_i hlt
      refine List.pairwise_cons.mpr ⟨?_, hp⟩
      intro z hz
      rcases List.mem_cons.mp hz with rfl | hz2
      · exact le_of_lt hlt
      · exact le_trans (hy z hz2) (le_of_lt hlt)
    · rename_i hge
      push_neg at hge
      refine List.pairwise_cons.mpr ⟨?_, ih ht⟩
      intro z hz
      rcases (mem_insDesc key x z t).mp hz with rfl | hz2
      · exact hge
      · exact hy z hz2

theorem sortDesc_pairwise (key : Nat → Rat) :
    ∀ (l : List Nat), List.Pairwise (fun a b => key b ≤ key a) (sortDesc key l) := by
  intro l
  induction l with
  | nil => exact List.Pairwise.nil
  | cons x t ih => exact pairwise_insDesc key x _ ih

/-- Claim C5: with a nonempty parsed term list, (i) every `Query` result
comes from an intersection id of kind other than `d`; (ii) the result list
is the rank-descending candidate list with the first standard-package entry
whose path ends in the raw query swapped to position 0 when one exists
within the standard-package prefix, and is the candidate list unchanged
otherwise; (iii) the candidate ids are in descending score order. -/
theorem c5_theorem (sw : String → Bool) (st : String → String) (s : Store) (q : String)
    (hne : parseQuery sw st q ≠ []) :
    (∀ pk ∈ Query sw st s q, ∃ id ∈ queryIds sw st s q,
      (getRec s id).kind ≠ "d" ∧ pk.path = (getRec s id).path) ∧
    ((∃ i, promoted q (queryCandidates sw st s q) i ∧
        Query sw st s q = listSwap (queryCandidates sw st s q) 0 i) ∨
     ((∀ i, ¬ promoted q (queryCandidates sw st s q) i) ∧
        Query sw st s q = queryCandidates sw st s q)) ∧
    List.Pairwise (fun a b => (getRec s b).score ≤ (getRec s a).score)
      (queryIds sw st s q) := by
  have hq : Query sw st s q = swapTop q (queryCandidates sw st s q) := by
    unfold Query
    rw [if_neg hne]
  refine ⟨?_, ?_, ?_⟩
  · intro pk hpk
    rw [hq] at hpk
    have hin : pk ∈ queryCandidates sw st s q := by
      unfold swapTop at hpk
      cases ho : swapIdx q 0 (queryCandidates sw st s q) with
      | none => rw [ho] at hpk; exact hpk
      | some i => rw [ho] at hpk; exact mem_listSwap _ 0 i pk hpk
    unfold queryCandidates packagesFilter at hin
    rcases List.mem_filterMap.mp hin with ⟨t, ht, hf⟩
    rcases List.mem_map.mp ht with ⟨id, hid, rfl⟩
    by_cases hd : ((tripleOf s id).2.2 == "d") = true
    · rw [if_pos hd] at hf
      cases hf
    · rw [if_neg hd] at hf
      refine ⟨id, hid, ?_, ?_⟩
      · simpa [tripleOf] using hd
      · injection hf with hf2
        rw [← hf2]
        rfl
  · cases ho : swapIdx q 0 (queryCandidates sw st s q) with
    | none =>
      right
      exact ⟨(swapIdx_none_iff q _).mp ho, by rw [hq]; unfold swapTop; rw [ho]⟩
    | some i =>
      left
      exact ⟨i, (swapIdx_some_iff q _ i).mp ho, by rw [hq]; unfold swapTop; rw [ho]⟩
  · unfold queryIds
    exact sortDesc_pairwise _ _

/-- The C5 witness store: two standard packages matching the term `bytes`,
the exact suffix match ranked second. -/
def c5ws : Store :=
  { ids := [("strings", 1), ("bytes", 2)], maxPackageId := 2,
    pkgs := [(1, { path := "strings", synopsis := "s", kind := "p", score := 300 }),
             (2, { path := "bytes", synopsis := "b", kind := "p", score := 100 })],
    index := [("index:bytes", [1, 2])] }

theorem c5_witness :
    (∀ pk ∈ Query swNone stId c5ws "bytes", ∃ id ∈ queryIds swNone stId c5ws "bytes",
      (getRec c5ws id).kind ≠ "d" ∧ pk.path = (getRec c5ws id).path) ∧
    ((∃ i, promoted "bytes" (queryCandidates swNone stId c5ws "bytes") i ∧
        Query swNone stId c5ws "bytes" =
          listSwap (queryCandidates swNone stId c5ws "bytes") 0 i) ∨
     ((∀ i, ¬ promoted "bytes" (queryCandidates swNone stId c5ws "bytes") i) ∧
        Query swNone stId c5ws "bytes" = queryCandidates swNone stId c5ws "bytes")) ∧
    List.Pairwise (fun a b => (getRec c5ws b).score ≤ (getRec c5ws a).score)
      (queryIds swNone stId c5ws "bytes") :=
  c5_theorem swNone stId c5ws "bytes" (by decide)

/-! ## Claim C10: project and import terms always indexed -/

@[simp] theorem fieldsAux_nil (f : Char → Bool) : fieldsAux f [] = ([], []) := rfl

theorem fieldsAux_cons (f : Char → Bool) (c : Char) (s : List Char) :
    fieldsAux f (c :: s) =
      if f c then
        ((if (fieldsAux f s).2.isEmpty then (fieldsAux f s).1
          else (fieldsAux f s).2 :: (fieldsAux f s).1), [])
      else ((fieldsAux f s).1, c :: (fieldsAux f s).2) := rfl

theorem fieldsAux_append_nonsep (f : Char → Bool) :
    ∀ (a : List Char), (∀ c ∈ a, f c = false) → ∀ (r : List Char),
      fieldsAux f (a ++ r) = ((fieldsAux f r).1, a ++ (fieldsAux f r).2) := by
  intro a
  induction a with
  | nil => intro _ r; simp
  | cons c t ih =>
    intro ha r
    have hc : f c = false := ha c (List.mem_cons_self c t)
    rw [List.cons_append, fieldsAux_cons, hc]
    simp only [Bool.false_eq_true, if_false]
    rw [ih (fun d hd => ha d (List.mem_cons_of_mem c hd)) r]
    rfl

theorem fieldsAux_sep_cons (f : Char → Bool) (c : Char) (hc : f c = true) (r : List Char) :
    fieldsAux f (c :: r) = (fieldsFunc f r, []) := by
  rw [fieldsAux_cons, hc]
  simp only [if_true]
  unfold fieldsFunc
  rfl

theorem fieldsFunc_word_sep (f : Char → Bool) (a : List Char) (c : Char) (r : List Char)
    (hne : a ≠ []) (ha : ∀ d ∈ a, f d = false) (hc : f c = true) :
    fieldsFunc f (a ++ c :: r) = a :: fieldsFunc f r := by
  unfold fieldsFunc
  rw [fieldsAux_append_nonsep f a ha (c :: r), fieldsAux_sep_cons f c hc r]
  dsimp only
  rw [List.append_nil]
  rw [if_neg (by simpa using hne)]
  rfl

theorem fieldsFunc_word (f : Char → Bool) (a : List Char)
    (hne : a ≠ []) (ha : ∀ d ∈ a, f d = false) :
    fieldsFunc f a = [a] := by
  unfold fieldsFunc
  rw [show a = a ++ [] from (List.append_nil a).symm, fieldsAux_append_nonsep f a ha []]
  simp only [fieldsAux_nil, List.append_nil]
  rw [if_neg (by simpa using hne)]

theorem strMkData (t : String) : String.mk t.data = t := rfl

theorem strDataNe (t : String) (h : t ≠ "") : t.data ≠ [] := by
  intro hd
  apply h
  cases t
  simp at hd
  rw [hd]

/-- `splitSp` inverts `joinSp` on lists of nonempty, space-free terms: the
stored space-separated terms string decodes back to the original term
list. -/
theorem splitSp_joinSp : ∀ (L : List String),
    (∀ t ∈ L, t ≠ "" ∧ ' ' ∉ t.data) → splitSp (joinSp L) = L := by
  intro L
  induction L with
  | nil => intro _; rfl
  | cons t rest ih =>
    intro h
    obtain ⟨hne, hsp⟩ := h t (List.mem_cons_self t rest)
    have hnosep : ∀ d ∈ t.data, (d == ' ') = false := by
      intro d hd
      by_cases hds : d = ' '
      · exact absurd (hds ▸ hd) hsp
      · simpa using hds
    cases rest with
    | nil =>
      show splitSp t = [t]
      unfold splitSp
      rw [fieldsFunc_word _ t.data (strDataNe t hne) hnosep]
      simp [strMkData]
    | cons u rest2 =>
      have hjoin : joinSp (t :: u :: rest2) = t ++ " " ++ joinSp (u :: rest2) := rfl
      rw [hjoin]
      unfold splitSp
      have hdata : (t ++ " " ++ joinSp (u :: rest2)).data =
          t.data ++ ' ' :: (joinSp (u :: rest2)).data := by
        simp [String.data_append]
      rw [hdata, fieldsFunc_word_sep _ t.data ' ' _ (strDataNe t hne) hnosep (by decide)]
      rw [List.map_cons, strMkData]
      have := ih (fun x hx => h x (List.mem_cons_of_mem t hx))
      unfold splitSp at this
      rw [this]

theorem insertTerm_nodup (l : List String) (t : String) (h : l.Nodup) :
    (insertTerm l t).Nodup := by
  unfold insertTerm
  split
  · exact h
  · rename_i ht
    simp [List.nodup_append, h, ht]

theorem insertTerms_nodup (ts : List String) :
    ∀ (l : List String), l.Nodup → (insertTerms l ts).Nodup := by
  induction ts with
  | nil => intro l h; exact h
  | cons a r ih => intro l h; exact ih _ (insertTerm_nodup l a h)

theorem foldl_insertTerm_nodup {α : Type} (g : α → String) (xs : List α) :
    ∀ (l : List String), l.Nodup →
      (xs.foldl (fun ts x => insertTerm ts (g x)) l).Nodup := by
  induction xs with
  | nil => intro l h; exact h
  | cons a r ih => intro l h; exact ih _ (insertTerm_nodup l (g a) h)

/-- The term set of a document never repeats a term. -/
theorem documentTerms_nodup (sw : String → Bool) (st : String → String)
    (iv : String → Bool) (pdoc : Doc) (rank : Rat) :
    (documentTerms sw st iv pdoc rank).Nodup := by
  unfold documentTerms
  have hbase : ((pdoc.imports.filter iv).foldl
      (fun ts p => insertTerm ts ("import:" ++ p))
      (insertTerm [] ("project:" ++ normalizeProjectRoot pdoc.projectRoot))).Nodup :=
    foldl_insertTerm_nodup _ _ _ (insertTerm_nodup [] _ List.nodup_nil)
  split
  · dsimp only
    split
    · apply insertTerm_nodup
      apply insertTerms_nodup
      split
      · exact insertTerms_nodup _ _ hbase
      · exact insertTerms_nodup _ _ (insertTerm_nodup _ _ hbase)
    · apply insertTerms_nodup
      split
      · exact insertTerms_nodup _ _ hbase
      · exact insertTerms_nodup _ _ (insertTerm_nodup _ _ hbase)
  · exact hbase

theorem mem_foldl_insertTerm_of_mem {α : Type} (g : α → String) (xs : List α)
    {x : String} : ∀ (l : List String), x ∈ l →
      x ∈ xs.foldl (fun ts y => insertTerm ts (g y)) l := by
  induction xs with
  | nil => intro l h; exact h
  | cons a r ih => intro l h; exact ih _ (mem_insertTerm_of_mem (g a) h)

theorem mem_foldl_insertTerm_self {α : Type} (g : α → String) (xs : List α)
    {x : α} (hx : x ∈ xs) : ∀ (l : List String),
      g x ∈ xs.foldl (fun ts y => insertTerm ts (g y)) l := by
  induction xs with
  | nil => exact absurd hx (List.not_mem_nil x)
  | cons a r ih =>
    intro l
    rcases List.mem_cons.mp hx with rfl | hx2
    · exact mem_foldl_insertTerm_of_mem g r _ (self_mem_insertTerm l (g x))
    · exact ih hx2 _

/-- Membership in the base term set (project and import terms, inserted
before the rank test) survives to the full term set. -/
theorem mem_documentTerms_of_mem_base (sw : String → Bool) (st : String → String)
    (iv : String → Bool) (pdoc : Doc) (rank : Rat) {x : String}
    (hx : x ∈ (pdoc.imports.filter iv).foldl
      (fun ts p => insertTerm ts ("import:" ++ p))
      (insertTerm [] ("project:" ++ normalizeProjectRoot pdoc.projectRoot))) :
    x ∈ documentTerms sw st iv pdoc rank := by
  unfold documentTerms
  split
  · dsimp only
    have h2 : x ∈ (if isStandardPackage pdoc.importPath then
        insertTerms ((pdoc.imports.filter iv).foldl
          (fun ts p => insertTerm ts ("import:" ++ p))
          (insertTerm [] ("project:" ++ normalizeProjectRoot pdoc.projectRoot)))
          (parseQuery sw st pdoc.importPath)
      else insertTerms (insertTerm ((pdoc.imports.filter iv).foldl
          (fun ts p => insertTerm ts ("import:" ++ p))
          (insertTerm [] ("project:" ++ normalizeProjectRoot pdoc.projectRoot))) "all:")
          (parseQuery sw st pdoc.projectName ++ parseQuery sw st pdoc.name)) := by
      split
      · exact mem_insertTerms_of_mem _ _ hx
      · exact mem_insertTerms_of_mem _ _ (mem_insertTerm_of_mem _ hx)
    split
    · exact mem_insertTerm_of_mem _ (mem_insertTerms_of_mem _ _ h2)
    · exact mem_insertTerms_of_mem _ _ h2
  · exact hx

/-- Claim C10 part (i): the project term is always in the term set. -/
theorem project_mem_documentTerms (sw : String → Bool) (st : String → String)
    (iv : String → Bool) (pdoc : Doc) (rank : Rat) :
    ("project:" ++ normalizeProjectRoot pdoc.projectRoot)
      ∈ documentTerms sw st iv pdoc rank :=
  mem_documentTerms_of_mem_base sw st iv pdoc rank
    (mem_foldl_insertTerm_of_mem _ _ _ (self_mem_insertTerm [] _))

/-- Claim C10 part (i): every valid import contributes its import term. -/
theorem import_mem_documentTerms (sw : String → Bool) (st : String → String)
    (iv : String → Bool) (pdoc : Doc) (rank : Rat) {p : String}
    (hp : p ∈ pdoc.imports) (hv : iv p = true) :
    ("import:" ++ p) ∈ documentTerms sw st iv pdoc rank :=
  mem_documentTerms_of_mem_base sw st iv pdoc rank
    (mem_foldl_insertTerm_self (fun p => "import:" ++ p)
      (pdoc.imports.filter iv) (List.mem_filter.mpr ⟨hp, hv⟩) _)

theorem strDataAppend (s t : String) : (s ++ t).data = s.data ++ t.data := by
  cases s
  cases t
  rfl

theorem strApp_inj (p a b : String) (h : p ++ a = p ++ b) : a = b := by
  have hd : (p ++ a).data = (p ++ b).data := congrArg String.data h
  rw [strDataAppend, strDataAppend] at hd
  have h2 := List.append_cancel_left hd
  cases a
  cases b
  simp only at h2
  rw [h2]

theorem idxSet_putTermStep_preserve (old new : List String) (id : Nat) (key : String)
    (s : Store) (t : String)
    (hkey : "index:" ++ t = key → ((if t ∈ old then 1 else 0) + 2 * new.count t) ≠ 1)
    (h : id ∈ idxSet s key) : id ∈ idxSet (putTermStep old new id s t) key := by
  unfold putTermStep
  dsimp only
  set w := (if t ∈ old then 1 else 0) + 2 * new.count t with hw
  by_cases hk : "index:" ++ t = key
  · rw [if_neg (hkey hk)]
    by_cases hw2 : w = 2
    · rw [if_pos hw2, hk, idxSet_saddIdx_self]
      exact (mem_saddL _ _ _).mpr (Or.inl h)
    · rw [if_neg hw2]
      exact h
  · by_cases hw1 : w = 1
    · rw [if_pos hw1, idxSet_sremIdx_ne _ _ _ _ (fun he => hk he.symm)]
      exact h
    · rw [if_neg hw1]
      by_cases hw2 : w = 2
      · rw [if_pos hw2, idxSet_saddIdx_ne _ _ _ _ (fun he => hk he.symm)]
        exact h
      · rw [if_neg hw2]
        exact h

theorem idxSet_foldl_putTermStep_preserve (old new : List String) (id : Nat)
    (key : String) :
    ∀ (l : List String) (s : Store),
      (∀ t ∈ l, "index:" ++ t = key →
        ((if t ∈ old then 1 else 0) + 2 * new.count t) ≠ 1) →
      id ∈ idxSet s key → id ∈ idxSet (l.foldl (putTermStep old new id) s) key := by
  intro l
  induction l with
  | nil => intro s _ h; exact h
  | cons a r ih =>
    intro s hcov h
    rw [List.foldl_cons]
    exact ih _ (fun t ht => hcov t (List.mem_cons_of_mem a ht))
      (idxSet_putTermStep_preserve old new id key s a
        (hcov a (List.mem_cons_self a r)) h)

/-- After the term delta of `putScript`, the id is in the inverted index of
every term that occurs exactly once among the new terms, provided the id was
already indexed under it when it was also an old term. -/
theorem putTermOps_mem (old new : List String) (id : Nat) (T : String) (s : Store)
    (hT : T ∈ new) (hcount : new.count T = 1)
    (hold : T ∈ old → id ∈ idxSet s ("index:" ++ T)) :
    id ∈ idxSet (putTermOps old new id s) ("index:" ++ T) := by
  unfold putTermOps
  have hmatch : ∀ t, "index:" ++ t = "index:" ++ T → t = T :=
    fun t ht => strApp_inj "index:" t T ht
  by_cases hTold : T ∈ old
  · apply idxSet_foldl_putTermStep_preserve
    · intro t _ hk
      rw [hmatch t hk, if_pos hTold, hcount]
      omega
    · exact hold hTold
  · have hTd : T ∈ (old ++ new).dedup :=
      List.mem_dedup.mpr (List.mem_append_right old hT)
    have hnd : ((old ++ new).dedup).Nodup := List.nodup_dedup _
    obtain ⟨l1, l2, hsplit⟩ := List.append_of_mem hTd
    rw [hsplit, List.foldl_append]
    have hndT : T ∉ l2 := by
      rw [hsplit] at hnd
      have hsub : (T :: l2).Sublist (l1 ++ T :: l2) :=
        List.sublist_append_right l1 (T :: l2)
      exact (List.nodup_cons.mp (List.Nodup.sublist hsub hnd)).1
    rw [List.foldl_cons]
    apply idxSet_foldl_putTermStep_preserve
    · intro t ht hk
      exact absurd (hmatch t hk ▸ ht) hndT
    · unfold putTermStep
      rw [if_neg hTold, hcount]
      dsimp only
      rw [if_neg (by omega : ¬ (0 + 2 * 1 = 1)), if_pos (by omega : 0 + 2 * 1 = 2)]
      rw [idxSet_saddIdx_self]
      exact (mem_saddL _ _ _).mpr (Or.inr rfl)

theorem strEqOfData (a b : String) (h : a.data = b.data) : a = b := by
  cases a
  cases b
  simp only at h
  rw [h]

theorem strAppend_assoc (a b c : String) : a ++ b ++ c = a ++ (b ++ c) := by
  apply strEqOfData
  rw [strDataAppend, strDataAppend, strDataAppend, strDataAppend, List.append_assoc]

theorem idxSet_congr {s1 s2 : Store} (h : s1.index = s2.index) (k : String) :
    idxSet s1 k = idxSet s2 k := by
  simp [idxSet, h]

theorem addCrawlScript_index : ∀ (args : List String) (s : Store),
    (addCrawlScript args s).index = s.index := by
  intro args
  induction args with
  | nil => intro s; rfl
  | cons a t ih =>
    intro s
    rw [addCrawlScript, ih]
    split <;> rfl

theorem putScript_index (path synopsis : String) (score : Rat) (gob : Option Doc)
    (terms etag kind : String) (nc : Int) (s : Store) :
    (putScript path synopsis score gob terms etag kind nc s).index =
      (putTermOps
        (splitSp (getRec (putEnsureId path s).2 (putEnsureId path s).1).terms)
        (splitSp (if etag ≠ "" ∧
            (alookup (putEnsureId path s).2.pkgs (putEnsureId path s).1).bind
              PkgRec.clone = some etag then "" else terms))
        (putEnsureId path s).1 (putEnsureId path s).2).index := by
  unfold putScript
  dsimp only
  split <;> rfl

/-- Claim C10 (amended): (i) the term list computed before `Put` always
contains `project:<root>` (empty root normalized to `go`) and `import:<p>`
for every valid import, whatever the rank — including rank 0.  (ii) Hence
the package persisted by `Put` is a member of `index:project:<root>` and of
each `index:import:<p>`, PROVIDED the incoming etag does not match the
stored `clone` field (matching zeroes the terms and deindexes the package —
see the counterexample), the terms are well formed (nonempty, space-free:
otherwise the space-joined wire format cannot represent them), and the store
satisfied the terms/index agreement (spec invariant 2) for the old terms of
the id. -/
theorem c10_theorem (sw : String → Bool) (st : String → String) (iv : String → Bool)
    (pdoc : Doc) (nc : Int) (s : Store) :
    ("project:" ++ normalizeProjectRoot pdoc.projectRoot)
        ∈ documentTerms sw st iv pdoc (documentRank pdoc) ∧
    (∀ p ∈ pdoc.imports, iv p = true →
      ("import:" ++ p) ∈ documentTerms sw st iv pdoc (documentRank pdoc)) ∧
    ((∀ t ∈ documentTerms sw st iv pdoc (documentRank pdoc), t ≠ "" ∧ ' ' ∉ t.data) →
     (pdoc.etag = "" ∨
       (alookup (putEnsureId pdoc.importPath s).2.pkgs
         (putEnsureId pdoc.importPath s).1).bind PkgRec.clone ≠ some pdoc.etag) →
     (∀ t ∈ splitSp (getRec (putEnsureId pdoc.importPath s).2
         (putEnsureId pdoc.importPath s).1).terms,
       (putEnsureId pdoc.importPath s).1 ∈ idxSet s ("index:" ++ t)) →
     ((putEnsureId pdoc.importPath s).1 ∈
        idxSet (Put sw st iv pdoc nc s)
          ("index:project:" ++ normalizeProjectRoot pdoc.projectRoot) ∧
      ∀ p ∈ pdoc.imports, iv p = true →
        (putEnsureId pdoc.importPath s).1 ∈
          idxSet (Put sw st iv pdoc nc s) ("index:import:" ++ p))) := by
  refine ⟨project_mem_documentTerms sw st iv pdoc _,
    fun p hp hv => import_mem_documentTerms sw st iv pdoc _ hp hv, ?_⟩
  intro hterms hclone hinv
  have hCOND : ¬ (pdoc.etag ≠ "" ∧
      (alookup (putEnsureId pdoc.importPath s).2.pkgs
        (putEnsureId pdoc.importPath s).1).bind PkgRec.clone = some pdoc.etag) := by
    rintro ⟨h1, h2⟩
    rcases hclone with h3 | h3
    · exact h1 h3
    · exact h3 h2
  have hPutIdx : (Put sw st iv pdoc nc s).index =
      (putScript pdoc.importPath pdoc.synopsis (documentRank pdoc) (some pdoc)
        (joinSp (documentTerms sw st iv pdoc (documentRank pdoc))) pdoc.etag
        (if pdoc.name == "" then "d" else if pdoc.isCmd then "c" else "p") nc s).index := by
    unfold Put
    dsimp only
    split
    · rfl
    · exact addCrawlScript_index _ _
  have hnew : splitSp (if pdoc.etag ≠ "" ∧
      (alookup (putEnsureId pdoc.importPath s).2.pkgs
        (putEnsureId pdoc.importPath s).1).bind PkgRec.clone = some pdoc.etag
      then "" else joinSp (documentTerms sw st iv pdoc (documentRank pdoc))) =
      documentTerms sw st iv pdoc (documentRank pdoc) := by
    rw [if_neg hCOND]
    exact splitSp_joinSp _ hterms
  have hmain : ∀ T, T ∈ documentTerms sw st iv pdoc (documentRank pdoc) →
      (putEnsureId pdoc.importPath s).1 ∈
        idxSet (Put sw st iv pdoc nc s) ("index:" ++ T) := by
    intro T hT
    rw [idxSet_congr (hPutIdx.trans
      (putScript_index pdoc.importPath pdoc.synopsis (documentRank pdoc) (some pdoc)
        (joinSp (documentTerms sw st iv pdoc (documentRank pdoc))) pdoc.etag
        (if pdoc.name == "" then "d" else if pdoc.isCmd then "c" else "p") nc s))]
    rw [hnew]
    apply putTermOps_mem _ _ _ _ _ hT
      (List.count_eq_one_of_mem (documentTerms_nodup sw st iv pdoc _) hT)
    intro hTold
    rw [idxSet_congr (putEnsureId_index pdoc.importPath s)]
    exact hinv T hTold
  constructor
  · have hk : ("index:project:" ++ normalizeProjectRoot pdoc.projectRoot) =
        "index:" ++ ("project:" ++ normalizeProjectRoot pdoc.projectRoot) := by
      rw [← strAppend_assoc]
      rfl
    rw [hk]
    exact hmain _ (project_mem_documentTerms sw st iv pdoc _)
  · intro p hp hv
    have hk : ("index:import:" ++ p) = "index:" ++ ("import:" ++ p) := by
      rw [← strAppend_assoc]
      rfl
    rw [hk]
    exact hmain _ (import_mem_documentTerms sw st iv pdoc _ hp hv)

/-- The C10 counterexample document: its etag matches the stored `clone`
field of its record. -/
def c10doc : Doc :=
  { importPath := "x", name := "a", etag := "E", funcs := 1 }

/-- The C10 counterexample store: package 1 carries `clone = "E"` and is
indexed under its project term. -/
def c10s : Store :=
  { ids := [("x", 1)], maxPackageId := 1,
    pkgs := [(1, { path := "x", terms := "project:go", clone := some "E" })],
    index := [("index:project:go", [1])] }

set_option maxRecDepth 8000 in
/-- Claim C10, counterexample: the term list computed before `Put` does
contain the project term, and the `Put` persists the record (`Exists` is
true afterwards) — but because the incoming etag equals the stored `clone`
field, `putScript` zeroes the terms and REMOVES the id from
`index:project:go`: the persisted package is not a member of its project
index, contradicting the "hence every package persisted by Put" part. -/
theorem c10_counterexample :
    ("project:" ++ normalizeProjectRoot c10doc.projectRoot)
      ∈ documentTerms swNone stId ivAll c10doc (documentRank c10doc) ∧
    existsPath (Put swNone stId ivAll c10doc 0 c10s) "x" = true ∧
    1 ∉ idxSet (Put swNone stId ivAll c10doc 0 c10s) "index:project:go" := by
  refine ⟨by decide, by decide, by decide⟩

/-- The C10 witness document: a fresh standard package with one valid
import. -/
def c10wdoc : Doc :=
  { importPath := "x", name := "a", imports := ["y.com/z"], funcs := 1 }

set_option maxRecDepth 8000 in
theorem c10_witness :
    (putEnsureId "x" emptyStore).1 ∈
      idxSet (Put swNone stId ivAll c10wdoc 5 emptyStore) "index:project:go" ∧
    (putEnsureId "x" emptyStore).1 ∈
      idxSet (Put swNone stId ivAll c10wdoc 5 emptyStore) "index:import:y.com/z" := by
  have h := ( c10_theorem swNone stId ivAll c10wdoc 5 emptyStore).2.2
    (by decide) (Or.inl rfl) (by decide)
  exact ⟨h.1, h.2 "y.com/z" (by decide) rfl⟩
